import Mathlib

/-!
Verification of the i18n bulk translation runner: a shallow embedding of its
JSON flatten/unflatten helpers, placeholder-parity validation, batch polling
loop, batch-result association, and the per-pair orchestration control flow,
together with theorems settling the specification claims.
-/

namespace NewTranslation

/-! ## The JSON data model

JavaScript values as the runner manipulates them.  Objects are
insertion-ordered association lists with pairwise-distinct keys (a JS object
invariant that appears as a hypothesis where needed). -/

mutual
/-- JavaScript/JSON values: primitive leaves, arrays, objects. -/
inductive Json : Type where
  | str  : String → Json
  | num  : Int → Json
  | bool : Bool → Json
  | null : Json
  | arr  : JsonArr → Json
  | obj  : JsonObj → Json

/-- Element list of a JSON array (arrays are opaque leaves for the
flatten/unflatten pair, but their elements are still JSON values). -/
inductive JsonArr : Type where
  | nil  : JsonArr
  | cons : Json → JsonArr → JsonArr

/-- Insertion-ordered field list of a JSON object. -/
inductive JsonObj : Type where
  | nil  : JsonObj
  | cons : String → Json → JsonObj → JsonObj
end

deriving instance DecidableEq for Json, JsonArr, JsonObj
deriving instance Repr for Json, JsonArr, JsonObj

/-- JS property read on a modelled object: the binding for the key, if any. -/
def JsonObj.jsGet : JsonObj → String → Option Json
  | .nil, _ => none
  | .cons k' v' rest, k => if k' = k then some v' else rest.jsGet k

/-- Object.prototype.hasOwnProperty on a modelled object. -/
def JsonObj.hasKey : JsonObj → String → Bool
  | .nil, _ => false
  | .cons k' _ rest, k => k' = k || rest.hasKey k

/-- JS property write on a modelled object: overwrite in place when the key
exists (the property keeps its position), else append at the end. -/
def JsonObj.setKey : JsonObj → String → Json → JsonObj
  | .nil, k, v => .cons k v .nil
  | .cons k' v' rest, k, v =>
    if k' = k then .cons k' v rest else .cons k' v' (rest.setKey k v)

/-- Flat maps (the out accumulator of flattenJson, translatedFlat, the inputs
of validateKeyAndPlaceholderParity) are JS objects from dotted keys to
values, modelled as ordered pair lists. -/
abbrev FlatMap := List (String × Json)

/-- JS property read on a flat map. -/
def fmGet : FlatMap → String → Option Json
  | [], _ => none
  | (k', v') :: rest, k => if k' = k then some v' else fmGet rest k

/-- hasOwnProperty on a flat map. -/
def fmHasKey (l : FlatMap) (k : String) : Bool :=
  l.any (fun p => p.1 = k)

/-- JS property write on a flat map: overwrite in place or append. -/
def fmSet : FlatMap → String → Json → FlatMap
  | [], k, v => [(k, v)]
  | (k', v') :: rest, k, v =>
    if k' = k then (k', v) :: rest else (k', v') :: fmSet rest k v

/-! ## flattenJson (src lines 122-133) -/

/-- The dotted-key builder of flattenJson:
key = prefix ? prefix + "." + k : k. -/
def keyOf (pre k : String) : String :=
  if pre = "" then k else pre ++ "." ++ k

mutual
/-- flattenJson(obj, prefix, out): null and primitive arguments are returned
unchanged; object and array arguments are walked entry by entry. -/
def flattenJson (j : Json) (pre : String) (out : FlatMap) : FlatMap :=
  match j with
  | .obj entries => flattenObj entries pre out
  | .arr elems => flattenArr elems 0 pre out
  | _ => out

/-- The for-of loop of flattenJson over object entries. -/
def flattenObj (entries : JsonObj) (pre : String) (out : FlatMap) : FlatMap :=
  match entries with
  | .nil => out
  | .cons k v rest => flattenObj rest pre (flattenVal v (keyOf pre k) out)

/-- The same loop over a top-level array argument (arrays pass the typeof
check of the outer call), whose Object.entries keys are the decimal index
strings. -/
def flattenArr (elems : JsonArr) (i : Nat) (pre : String) (out : FlatMap) :
    FlatMap :=
  match elems with
  | .nil => out
  | .cons v rest =>
    flattenArr rest (i + 1) pre (flattenVal v (keyOf pre (toString i)) out)

/-- The loop body for one entry: a non-null non-array object value recurses
with the extended key, everything else is written to out as a leaf. -/
def flattenVal (v : Json) (key : String) (out : FlatMap) : FlatMap :=
  match v with
  | .obj inner => flattenObj inner key out
  | _ => fmSet out key v
end

/-! ## unflattenJson (src lines 134-151) -/

/-- k.split(".") for a single-character separator, on the character list. -/
def splitDotsAux : List Char → List Char → List String
  | [], acc => [String.mk acc.reverse]
  | c :: cs, acc =>
    if c = '.' then String.mk acc.reverse :: splitDotsAux cs []
    else splitDotsAux cs (c :: acc)

/-- k.split(".") as used by unflattenJson. -/
def splitDots (s : String) : List String := splitDotsAux s.data []

/-- One pass of the unflattenJson inner walk for the path parts of one key.
The walk mutates cur down the tree; functionally, each level is rebuilt with
setKey.  When the walk steps into a non-object value the JS semantics are:
a property write on a primitive is silently ignored (the file is non-strict
CommonJS code) and reading a property of the primitive yields undefined, so
a single remaining part leaves the tree unchanged while two or more remaining
parts dereference undefined on the next iteration and throw a TypeError
(modelled as none); stepping into null throws at the next hasOwnProperty
call.  Property writes into array values are likewise modelled as ignored
(no claim exercises them). -/
def insertGo : JsonObj → List String → Json → Option JsonObj
  | cur, [], _ => some cur
  | cur, [part], v => some (cur.setKey part v)
  | cur, part :: rest, v =>
    match cur.jsGet part with
    | some (.obj o) => (insertGo o rest v).map (fun o' => cur.setKey part (.obj o'))
    | some .null => none
    | some _ => if rest.length = 1 then some cur else none
    | none => (insertGo .nil rest v).map (fun o' => cur.setKey part (.obj o'))

/-- The for-of loop of unflattenJson over the entries of the flat map. -/
def unflattenGo : JsonObj → FlatMap → Option JsonObj
  | root, [] => some root
  | root, (k, v) :: rest =>
    match insertGo root (splitDots k) v with
    | some root' => unflattenGo root' rest
    | none => none

/-- unflattenJson(flat): builds the nested object from the flat map; none
models the TypeError reachable through conflicting partial paths. -/
def unflattenJson (flat : FlatMap) : Option JsonObj := unflattenGo .nil flat

/-! ## extractPlaceholders and validation (src lines 152-174) -/

/-- The global scan of PLACEHOLDER_REGEX = /\x7b([^\x7b\x7d]+)\x7d/g over the
character list: the second argument is none outside a candidate match and
some acc (reversed run so far) after an opening brace. -/
def scanPHAux : List Char → Option (List Char) → List String
  | [], _ => []
  | c :: rest, none =>
    if c = '{' then scanPHAux rest (some []) else scanPHAux rest none
  | c :: rest, some acc =>
    if c = '}' then
      if acc = [] then scanPHAux rest none
      else String.mk acc.reverse :: scanPHAux rest none
    else if c = '{' then scanPHAux rest (some [])
    else scanPHAux rest (some (c :: acc))

/-- set.add: JS Sets keep first-insertion order and collapse duplicates. -/
def addUnique (l : List String) (s : String) : List String :=
  if s ∈ l then l else l ++ [s]

/-- extractPlaceholders(str): the empty set for non-strings, else the set of
first capture groups of the global regex scan, in insertion order. -/
def extractPlaceholders : Json → List String
  | .str s => (scanPHAux s.data none).foldl addUnique []
  | _ => []

/-- extractPlaceholders applied to a possibly-undefined property read
(extractPlaceholders(undefined) also returns the empty set). -/
def extractPlaceholdersOpt : Option Json → List String
  | none => []
  | some j => extractPlaceholders j

/-- One entry of the placeholder_mismatch error group. -/
structure PHDiff where
  key : String
  missingPH : List String
  extraPH : List String
  deriving DecidableEq, Repr

/-- The three error groups pushed by validateKeyAndPlaceholderParity. -/
inductive VErr : Type where
  | missing_keys : List String → VErr
  | extra_keys : List String → VErr
  | placeholder_mismatch : List PHDiff → VErr
  deriving DecidableEq, Repr

/-- The {ok, errors} result of validateKeyAndPlaceholderParity. -/
structure ValResult where
  ok : Bool
  errors : List VErr
  deriving DecidableEq, Repr

/-- Loop body of the two key-parity passes: push the key unless the other
map has it. -/
def keyParityStep (other : FlatMap) (acc : List String) (k : String) :
    List String :=
  if fmHasKey other k then acc else acc ++ [k]

/-- Loop body of the placeholder pass, which runs over every source key and
reads targetFlat[key] even when the key is absent from the target. -/
def phStep (sourceFlat targetFlat : FlatMap) (acc : List PHDiff)
    (k : String) : List PHDiff :=
  let srcPH := extractPlaceholdersOpt (fmGet sourceFlat k)
  let tgtPH := extractPlaceholdersOpt (fmGet targetFlat k)
  let missingPH := srcPH.filter (fun p => !tgtPH.contains p)
  let extraPH := tgtPH.filter (fun p => !srcPH.contains p)
  if missingPH.length ≠ 0 ∨ extraPH.length ≠ 0 then
    acc ++ [⟨k, missingPH, extraPH⟩]
  else acc

/-- validateKeyAndPlaceholderParity({sourceFlat, targetFlat}): the missing
and extra key passes, the placeholder pass, and the conditionally pushed
error groups, with ok = errors.length === 0. -/
def validateKeyAndPlaceholderParity (sourceFlat targetFlat : FlatMap) :
    ValResult :=
  let missing := (sourceFlat.map Prod.fst).foldl (keyParityStep targetFlat) []
  let extra := (targetFlat.map Prod.fst).foldl (keyParityStep sourceFlat) []
  let placeholderDiffs :=
    (sourceFlat.map Prod.fst).foldl (phStep sourceFlat targetFlat) []
  let errors :=
    (if missing.length ≠ 0 then [VErr.missing_keys missing] else []) ++
    (if extra.length ≠ 0 then [VErr.extra_keys extra] else []) ++
    (if placeholderDiffs.length ≠ 0 then
      [VErr.placeholder_mismatch placeholderDiffs] else [])
  { ok := errors.length = 0, errors := errors }

/-! ## JS string coercion and truthiness (for String(val) and the ternary
conditions of the batch-result association) -/

mutual
/-- String(v) for a defined JSON value: identity on strings, decimal
rendering of numbers, true/false, "null", comma join of array elements
(null elements render empty), "[object Object]" for plain objects. -/
def jsToString : Json → String
  | .str s => s
  | .num n => toString n
  | .bool b => if b then "true" else "false"
  | .null => "null"
  | .arr elems => jsArrToString elems
  | .obj _ => "[object Object]"

/-- Array.prototype.toString: elements joined by commas. -/
def jsArrToString : JsonArr → String
  | .nil => ""
  | .cons v .nil => (match v with | .null => "" | x => jsToString x)
  | .cons v rest =>
    (match v with | .null => "" | x => jsToString x) ++ "," ++ jsArrToString rest
end

/-- JS truthiness of a JSON value. -/
def truthy : Json → Bool
  | .str s => s ≠ ""
  | .num n => n ≠ 0
  | .bool b => b
  | .null => false
  | .arr _ => true
  | .obj _ => true

/-- fetched[i].text: the text property of an object entry, undefined
otherwise. -/
def textProp : Json → Option Json
  | .obj l => l.jsGet "text"
  | _ => none

/-! ## Batch-result association (src lines 506-511) -/

/-- The value stored for one key:
val = fetched[i] && typeof fetched[i].text === "string"
        ? fetched[i].text : fetched[i];
translatedFlat[key] = typeof val === "string" ? val : String(val ?? "");
with the argument none modelling fetched[i] === undefined (index out of
range of the fetched entries). -/
def batchVal : Option Json → String
  | none => ""
  | some e =>
    match (if truthy e then textProp e else none) with
    | some (.str s) => s
    | _ =>
      match e with
      | .str s => s
      | .null => ""
      | x => jsToString x

/-- The association loop: one entry per input line key, positional. -/
def assocBatchResults : List String → List Json → FlatMap → FlatMap
  | [], _, acc => acc
  | k :: ks, fetched, acc =>
    assocBatchResults ks (fetched.drop 1)
      (fmSet acc k (.str (batchVal fetched.head?)))

/-! ## waitForBatchCompletion (src lines 258-273) -/

/-- One describeTextTranslationJob response:
TextTranslationJobProperties.JobStatus and .Message. -/
structure JobDetails where
  status : String
  message : Option String
  deriving DecidableEq, Repr

/-- Outcome of the polling loop on a finite observed response sequence. -/
inductive WaitOutcome : Type where
  | completed : JobDetails → WaitOutcome
  | thrown : String → WaitOutcome
  | stillPolling : WaitOutcome
  deriving DecidableEq, Repr

/-- TextTranslationJobProperties.Message || "unknown" (an absent or empty
message is falsy). -/
def jsReason : Option String → String
  | some m => if m = "" then "unknown" else m
  | none => "unknown"

/-- waitForBatchCompletion driven by the finite sequence of poll responses:
returns the details on COMPLETED, throws BatchTranslateFailed with reason
Message || "unknown" on FAILED or STOPPED, and otherwise sleeps and polls
again (stillPolling when the observed sequence is exhausted). -/
def waitForBatchCompletion : List JobDetails → WaitOutcome
  | [] => .stillPolling
  | d :: rest =>
    if d.status = "COMPLETED" then .completed d
    else if d.status = "FAILED" ∨ d.status = "STOPPED" then
      .thrown (jsReason d.message)
    else waitForBatchCompletion rest

/-! ## The per-pair pipeline (TranslationRunner.translateModuleLocale,
src lines 451-603), modelled over an environment that fixes the outcome of
every external effect. -/

/-- The failure modes a pair can throw with. -/
inductive FailReason : Type where
  | read : FailReason
  | staging : String → FailReason
  | fallbackTranslate : String → FailReason
  | unflattenType : FailReason
  | validation : FailReason
  | write : String → FailReason
  | cleanup : String → FailReason
  deriving DecidableEq, Repr

/-- Outcomes of the external effects touched while processing one
module-locale pair. -/
structure PairEnv where
  /-- readJsonSafe(enFile); none models null (unreadable or unparsable). -/
  source : Option Json
  /-- putJsonl: the input upload to S3. -/
  stage : Except String Unit
  /-- TRANSLATE_SYNC_FALLBACK / opts.forceSync. -/
  forceSync : Bool
  /-- whether TRANSLATE_ROLE_ARN is configured (truthy). -/
  hasRoleArn : Bool
  /-- startTextTranslationJob. -/
  batchStart : Except String Unit
  /-- the DescribeTextTranslationJob responses the wait loop observes. -/
  polls : List JobDetails
  /-- fetchBatchResults: error covers both “No batch outputs” and S3
  failures. -/
  fetched : Except String (List Json)
  /-- translateText on one source text. -/
  perString : String → Except String String
  /-- writeJsonPretty of the local output file. -/
  writeFile : Except String Unit
  /-- AwsS3.deleteFile of the staged input. -/
  cleanupInput : Except String Unit
  /-- AwsS3.listFiles + deleteFiles under the output prefix. -/
  cleanupOutputs : Except String Unit

/-- Observable outcome of processing one pair. -/
structure PairTrace where
  /-- the exception the pair threw, if any (caught by the run loop). -/
  failed : Option FailReason
  /-- whether the local output file was written. -/
  wroteFile : Bool
  /-- whether the S3 cleanup step was entered. -/
  cleanupRan : Bool
  /-- whether the per-string fallback path ran. -/
  usedFallback : Bool
  /-- the texts sent to translateText by the fallback, in call order. -/
  fallbackCalls : List String
  /-- the nested JSON written to the local file. -/
  written : Option JsonObj
  deriving DecidableEq, Repr

/-- String(text ?? "") — the Text argument translateText receives for one
flat-map value. -/
def textArg : Json → String
  | .null => ""
  | x => jsToString x

/-- The per-string fallback loop (src lines 526-535): one translateText call
per {key, text} line, in source order, stopping at the first rejection.
Returns the texts sent (in call order) and the {key, text} results. -/
def runFallback (f : String → Except String String) :
    FlatMap → List String × Except String (List (String × String))
  | [] => ([], .ok [])
  | (k, v) :: rest =>
    match f (textArg v) with
    | .error e => ([textArg v], .error e)
    | .ok t =>
      let (calls, res) := runFallback f rest
      (textArg v :: calls, match res with
        | .ok pairs => .ok ((k, t) :: pairs)
        | .error e => .error e)

/-- translatedFlat = {}; for (const r of out) translatedFlat[r.key] = r.text. -/
def listToFlat (l : List (String × String)) : FlatMap :=
  l.foldl (fun acc p => fmSet acc p.1 (.str p.2)) []

/-- The tail of the pair pipeline once a translated flat map exists:
unflatten, validate (a failure throws before the write), write the local
file, then the S3 cleanup step, whose rejections propagate uncaught. -/
def finishPair (env : PairEnv) (flatSource translatedFlat : FlatMap)
    (usedFallback : Bool) (calls : List String) : PairTrace :=
  match unflattenJson translatedFlat with
  | none =>
    { failed := some .unflattenType, wroteFile := false, cleanupRan := false,
      usedFallback := usedFallback, fallbackCalls := calls, written := none }
  | some nested =>
    if (validateKeyAndPlaceholderParity flatSource translatedFlat).ok then
      match env.writeFile with
      | .error e =>
        { failed := some (.write e), wroteFile := false, cleanupRan := false,
          usedFallback := usedFallback, fallbackCalls := calls, written := none }
      | .ok _ =>
        match env.cleanupInput with
        | .error e =>
          { failed := some (.cleanup e), wroteFile := true, cleanupRan := true,
            usedFallback := usedFallback, fallbackCalls := calls,
            written := some nested }
        | .ok _ =>
          match env.cleanupOutputs with
          | .error e =>
            { failed := some (.cleanup e), wroteFile := true,
              cleanupRan := true, usedFallback := usedFallback,
              fallbackCalls := calls, written := some nested }
          | .ok _ =>
            { failed := none, wroteFile := true, cleanupRan := true,
              usedFallback := usedFallback, fallbackCalls := calls,
              written := some nested }
    else
      { failed := some .validation, wroteFile := false, cleanupRan := false,
        usedFallback := usedFallback, fallbackCalls := calls, written := none }

/-- The per-string fallback path (src lines 517-536) followed by the tail of
the pipeline: a translateText rejection propagates and fails the pair. -/
def fallbackPair (env : PairEnv) (flatSource : FlatMap) : Option PairTrace :=
  match runFallback env.perString flatSource with
  | (calls, .error e) => some
      { failed := some (.fallbackTranslate e), wroteFile := false,
        cleanupRan := false, usedFallback := true,
        fallbackCalls := calls, written := none }
  | (calls, .ok pairs) =>
    some (finishPair env flatSource (listToFlat pairs) true calls)

/-- Control-flow model of TranslationRunner.translateModuleLocale: build the
payload (an unreadable source throws), upload the staged input (a rejection
throws — the upload happens before the batch try block), attempt the batch
path when not forced sync and a role ARN is configured (any error inside is
caught and leaves translatedFlat null), fall back to per-string translation
when the batch produced nothing, then finish.  none models the run hanging
in the unbounded wait loop. -/
def translateModuleLocale (env : PairEnv) : Option PairTrace :=
  match env.source with
  | none => some
      { failed := some .read, wroteFile := false, cleanupRan := false,
        usedFallback := false, fallbackCalls := [], written := none }
  | some json =>
    let flatSource := flattenJson json "" []
    match env.stage with
    | .error e => some
        { failed := some (.staging e), wroteFile := false, cleanupRan := false,
          usedFallback := false, fallbackCalls := [], written := none }
    | .ok _ =>
      let batchFlat : Option (Option FlatMap) :=
        if !env.forceSync && env.hasRoleArn then
          match env.batchStart with
          | .error _ => some none
          | .ok _ =>
            match waitForBatchCompletion env.polls with
            | .stillPolling => none
            | .thrown _ => some none
            | .completed _ =>
              match env.fetched with
              | .error _ => some none
              | .ok fetched =>
                some (some (assocBatchResults (flatSource.map Prod.fst)
                  fetched []))
        else some none
      match batchFlat with
      | none => none
      | some (some tf) => some (finishPair env flatSource tf false [])
      | some none => fallbackPair env flatSource

/-! ## The run loop (TranslationRunner.generateBulkTranslations,
src lines 605-640) -/

/-- Environment of one whole run. -/
structure RunEnv where
  /-- whether scanI18nBaseDirs found at least one base directory. -/
  baseDirsFound : Bool
  /-- the discovered module names, in discovery order. -/
  modules : List String
  /-- the configured target locale folder codes, in configuration order. -/
  targets : List String
  /-- the external-effect outcomes for each (module, target) pair. -/
  pairEnv : String → String → PairEnv

/-- Observable outcome of a run. -/
structure RunResult where
  /-- the error generateBulkTranslations raises to its caller, if any. -/
  fatal : Option String
  totalPairs : Nat
  completedPairs : Nat
  /-- the progress events logged by _progressTick, in order:
  (completedPairs, totalPairs, percent). -/
  progress : List (Nat × Nat × Nat)
  /-- per pair: (module, target, the caught failure if any), in order. -/
  pairResults : List (String × String × Option FailReason)

/-- _progressTick percentage:
totalPairs > 0 ? Math.round(completedPairs / totalPairs * 100) : 0. -/
def percent (completed total : Nat) : Nat :=
  if 0 < total then (200 * completed + total) / (2 * total) else 0

/-- The inner for-of loop over targets for one module: each pair is tried,
its exception (if any) is caught and logged, and the finally block increments
the completed counter and emits a progress tick. -/
def runTargets (env : RunEnv) (total : Nat) (m : String) :
    List String → Nat →
    Option (Nat × List (Nat × Nat × Nat) ×
      List (String × String × Option FailReason))
  | [], completed => some (completed, [], [])
  | t :: ts, completed =>
    match translateModuleLocale (env.pairEnv m t) with
    | none => none
    | some trace =>
      match runTargets env total m ts (completed + 1) with
      | none => none
      | some (cEnd, evs, prs) =>
        some (cEnd, (completed + 1, total, percent (completed + 1) total) :: evs,
          (m, t, trace.failed) :: prs)

/-- The outer for-of loop over the discovered modules. -/
def runModules (env : RunEnv) (total : Nat) :
    List String → Nat →
    Option (Nat × List (Nat × Nat × Nat) ×
      List (String × String × Option FailReason))
  | [], completed => some (completed, [], [])
  | m :: ms, completed =>
    match runTargets env total m env.targets completed with
    | none => none
    | some (c1, evs1, prs1) =>
      match runModules env total ms c1 with
      | none => none
      | some (c2, evs2, prs2) => some (c2, evs1 ++ evs2, prs1 ++ prs2)

/-- Control-flow model of generateBulkTranslations: scanAllModules throws
(raising to the caller) exactly when no i18n base directory exists; zero
modules under an existing base directory is a non-fatal empty run.  The
total pair count is fixed from the module and target counts before the
loops, the completed counter starts at zero, and an initial progress tick is
emitted before the first pair. -/
def generateBulkTranslations (env : RunEnv) : Option RunResult :=
  if env.baseDirsFound then
    let total := env.modules.length * env.targets.length
    match runModules env total env.modules 0 with
    | none => none
    | some (completed, evs, prs) =>
      some { fatal := none, totalPairs := total, completedPairs := completed,
             progress := (0, total, percent 0 total) :: evs,
             pairResults := prs }
  else
    some { fatal := some "No i18n/18n base directory found", totalPairs := 0,
           completedPairs := 0, progress := [], pairResults := [] }

/-! ## Generic lemmas about the JS object model -/

theorem fmSet_of_not_hasKey :
    (l : FlatMap) → ∀ k v, fmHasKey l k = false → fmSet l k v = l ++ [(k, v)]
  | [] => by intro k v _; rfl
  | (k', v') :: rest => by
    intro k v h
    simp only [fmHasKey, List.any_cons, Bool.or_eq_false_iff] at h
    obtain ⟨h1, h2⟩ := h
    simp only [fmSet, if_neg (by simpa using h1), List.cons_append,
      List.cons.injEq, true_and]
    exact fmSet_of_not_hasKey rest k v h2

theorem fmHasKey_append (l1 l2 : FlatMap) (k : String) :
    fmHasKey (l1 ++ l2) k = (fmHasKey l1 k || fmHasKey l2 k) := by
  simp [fmHasKey, List.any_append]

theorem fmGet_eq_none_of_not_hasKey :
    (l : FlatMap) → ∀ k, fmHasKey l k = false → fmGet l k = none
  | [] => by intro k _; rfl
  | (k', v') :: rest => by
    intro k h
    simp only [fmHasKey, List.any_cons, Bool.or_eq_false_iff] at h
    obtain ⟨h1, h2⟩ := h
    simp only [fmGet, if_neg (by simpa using h1)]
    exact fmGet_eq_none_of_not_hasKey rest k h2

/-! ## Claim C8: the batch polling loop -/

/-- A status on which the wait loop keeps polling. -/
def nonTerminal (d : JobDetails) : Prop :=
  d.status ≠ "COMPLETED" ∧ d.status ≠ "FAILED" ∧ d.status ≠ "STOPPED"

instance (d : JobDetails) : Decidable (nonTerminal d) := by
  unfold nonTerminal; infer_instance

theorem waitForBatchCompletion_skips_nonTerminal :
    (polls : List JobDetails) → ∀ d, nonTerminal d →
      waitForBatchCompletion (d :: polls) = waitForBatchCompletion polls := by
  intro polls d hd
  obtain ⟨h1, h2, h3⟩ := hd
  simp [waitForBatchCompletion, h1, h2, h3]

/-- C8: on the first poll whose status is COMPLETED (all earlier polls
non-terminal) the loop returns that poll's details; on the first poll whose
status is FAILED or STOPPED it throws BatchTranslateFailed carrying the
remote reason; while every observed status is non-terminal it keeps
polling. -/
theorem waitForBatchCompletion_first_terminal (polls : List JobDetails)
    (i : Nat) (hi : i < polls.length)
    (hbef : ∀ j (hj : j < polls.length), j < i → nonTerminal (polls.get ⟨j, hj⟩)) :
    ((polls.get ⟨i, hi⟩).status = "COMPLETED" →
      waitForBatchCompletion polls = .completed (polls.get ⟨i, hi⟩)) ∧
    ((polls.get ⟨i, hi⟩).status = "FAILED" ∨ (polls.get ⟨i, hi⟩).status = "STOPPED" →
      waitForBatchCompletion polls = .thrown (jsReason (polls.get ⟨i, hi⟩).message)) := by
  induction polls generalizing i with
  | nil => exact absurd hi (by simp)
  | cons d rest ih =>
    cases i with
    | zero =>
      refine ⟨fun hc => ?_, fun hf => ?_⟩
      · simp only [List.get] at hc ⊢
        simp [waitForBatchCompletion, hc]
      · simp only [List.get] at hf ⊢
        rcases hf with hf | hf <;> simp [waitForBatchCompletion, hf]
    | succ i =>
      have hd : nonTerminal d := by
        have := hbef 0 (by simp) (Nat.succ_pos i)
        simpa using this
      have hstep := waitForBatchCompletion_skips_nonTerminal rest d hd
      have hrec := ih i (by simpa using hi)
        (fun j hj hji => by
          have := hbef (j + 1) (by simpa using hj) (by omega)
          simpa using this)
      simp only [List.get] at hrec ⊢
      exact ⟨fun hc => hstep.trans ((hrec.1) hc),
             fun hf => hstep.trans ((hrec.2) hf)⟩

/-- Witness for C8 at the spec's own scenario PENDING, RUNNING, COMPLETED:
the loop returns on the third poll, the first that observes COMPLETED. -/
theorem waitForBatchCompletion_first_terminal_witness :
    waitForBatchCompletion
      [⟨"PENDING", none⟩, ⟨"RUNNING", none⟩, ⟨"COMPLETED", none⟩]
      = .completed ⟨"COMPLETED", none⟩ :=
  (waitForBatchCompletion_first_terminal
    [⟨"PENDING", none⟩, ⟨"RUNNING", none⟩, ⟨"COMPLETED", none⟩]
    2 (by decide)
    (by
      intro j hj hji
      match j, hj with
      | 0, _ => exact show nonTerminal ⟨"PENDING", none⟩ by decide
      | 1, _ => exact show nonTerminal ⟨"RUNNING", none⟩ by decide
      | j + 2, _ => exact absurd hji (by omega))).1 (by decide)

/-! ## Claim C9: conflicting partial paths in unflattenJson -/

/-- C9 counterexample: with the leaf key first, the later deeper write is
silently dropped — the resulting node keeps the value written earlier, so
the later value does not determine the shared node. -/
theorem unflatten_conflict_not_last_write_wins :
    unflattenJson [("a", Json.str "x"), ("a.b", Json.num 1)]
      = some (.cons "a" (.str "x") .nil) ∧
    JsonObj.cons "a" (.str "x") .nil
      ≠ .cons "a" (.obj (.cons "b" (.num 1) .nil)) .nil := by
  exact ⟨rfl, by decide⟩

/-- C9 amended: writing the shorter (prefix) key after the longer one
overwrites the shared node (last write wins in that order); writing a key
exactly one level below an existing primitive leaf is silently ignored (the
earlier value survives); writing two or more levels below an existing
primitive leaf throws a TypeError. -/
theorem unflatten_conflict_resolution (v w : Json) (s : String) :
    unflattenJson [("a.b", v), ("a", w)] = some (.cons "a" w .nil) ∧
    unflattenJson [("a", Json.str s), ("a.b", v)]
      = some (.cons "a" (.str s) .nil) ∧
    unflattenJson [("a", Json.str s), ("a.b.c", v)] = none :=
  ⟨rfl, rfl, rfl⟩

/-! ## Claim C10: positional association of batch results -/

/-- The entry list the association loop produces, one entry per key in order,
pairing position i with fetched[i]. -/
def zipAssoc : List String → List Json → FlatMap
  | [], _ => []
  | k :: ks, fetched =>
    (k, .str (batchVal fetched.head?)) :: zipAssoc ks (fetched.drop 1)

theorem assocBatchResults_eq_zipAssoc :
    (keys : List String) → ∀ (fetched : List Json) (acc : FlatMap),
      keys.Nodup → (∀ k ∈ keys, fmHasKey acc k = false) →
      assocBatchResults keys fetched acc = acc ++ zipAssoc keys fetched
  | [] => by intro fetched acc _ _; simp [assocBatchResults, zipAssoc]
  | k :: ks => by
    intro fetched acc hnd hacc
    have hk_not : k ∉ ks := (List.nodup_cons.mp hnd).1
    have hfresh : ∀ k' ∈ ks,
        fmHasKey (acc ++ [(k, Json.str (batchVal fetched.head?))]) k' = false := by
      intro k' hk'
      rw [fmHasKey_append]
      simp only [Bool.or_eq_false_iff]
      refine ⟨hacc k' (by simp [hk']), ?_⟩
      have hne : k ≠ k' := fun h => hk_not (h ▸ hk')
      simp [fmHasKey, hne]
    calc assocBatchResults (k :: ks) fetched acc
        = assocBatchResults ks (fetched.drop 1)
            (acc ++ [(k, Json.str (batchVal fetched.head?))]) := by
          simp only [assocBatchResults]
          rw [fmSet_of_not_hasKey acc k _ (hacc k (by simp))]
      _ = (acc ++ [(k, Json.str (batchVal fetched.head?))])
            ++ zipAssoc ks (fetched.drop 1) :=
          assocBatchResults_eq_zipAssoc ks (fetched.drop 1) _
            (List.nodup_cons.mp hnd).2 hfresh
      _ = acc ++ zipAssoc (k :: ks) fetched := by simp [zipAssoc]

theorem zipAssoc_map_fst :
    (keys : List String) → ∀ fetched, (zipAssoc keys fetched).map Prod.fst = keys
  | [] => by intro fetched; rfl
  | k :: ks => by
    intro fetched
    simp [zipAssoc, zipAssoc_map_fst ks]

theorem fmGet_zipAssoc :
    (keys : List String) → ∀ (fetched : List Json) i (hi : i < keys.length),
      keys.Nodup →
      fmGet (zipAssoc keys fetched) (keys.get ⟨i, hi⟩)
        = some (.str (batchVal fetched[i]?))
  | [] => by intro _ i hi _; exact absurd hi (by simp)
  | k :: ks => by
    intro fetched i hi hnd
    cases i with
    | zero =>
      simp [zipAssoc, fmGet, List.head?_eq_getElem?]
    | succ i =>
      have hk_not : k ∉ ks := (List.nodup_cons.mp hnd).1
      have hi' : i < ks.length := by simpa using hi
      have hmem : ks.get ⟨i, hi'⟩ ∈ ks := ks.get_mem i hi'
      have hne : k ≠ ks.get ⟨i, hi'⟩ := fun h => hk_not (h ▸ hmem)
      have hrec := fmGet_zipAssoc ks (fetched.drop 1) i hi'
        (List.nodup_cons.mp hnd).2
      simp only [zipAssoc, fmGet, List.get, if_neg hne]
      rw [hrec, List.getElem?_drop, Nat.add_comm]

/-- C10 counterexample: a fetched entry that has no string text field and is
not itself a string need not be associated as the empty string — a numeric
entry is rendered by String(val) as its decimal form. -/
theorem assocBatchResults_non_string_entry_not_empty :
    assocBatchResults ["a"] [Json.num 42] [] = [("a", Json.str "42")] ∧
    Json.str "42" ≠ Json.str "" := ⟨rfl, by decide⟩

/-- C10 amended: the positional association is total and never throws — every
source key receives a string value: position i is mapped to the String
coercion of fetched[i], which is the text field when that is a string, the
entry itself when it is a string, the empty string for a missing or null
entry, and otherwise the JS string rendering of the value (such as a decimal
number or object rendering), not necessarily the empty string. -/
theorem assocBatchResults_total (keys : List String) (fetched : List Json)
    (hnd : keys.Nodup) :
    ((assocBatchResults keys fetched []).map Prod.fst = keys) ∧
    (∀ i (hi : i < keys.length),
      fmGet (assocBatchResults keys fetched []) (keys.get ⟨i, hi⟩)
        = some (.str (batchVal fetched[i]?))) ∧
    (∀ i (hi : i < keys.length), fetched.length ≤ i →
      fmGet (assocBatchResults keys fetched []) (keys.get ⟨i, hi⟩)
        = some (.str "")) ∧
    (∀ e s, truthy e = true → textProp e = some (.str s) →
      batchVal (some e) = s) ∧
    (∀ s, batchVal (some (.str s)) = s) ∧
    batchVal none = "" ∧ batchVal (some .null) = "" := by
  have hbase := assocBatchResults_eq_zipAssoc keys fetched []
    hnd (by intro k _; rfl)
  simp only [List.nil_append] at hbase
  refine ⟨?_, ?_, ?_, ?_, ?_, rfl, rfl⟩
  · rw [hbase]; exact zipAssoc_map_fst keys fetched
  · intro i hi
    rw [hbase]; exact fmGet_zipAssoc keys fetched i hi hnd
  · intro i hi hlen
    rw [hbase, fmGet_zipAssoc keys fetched i hi hnd,
      List.getElem?_eq_none hlen]
    rfl
  · intro e s h1 h2
    simp [batchVal, h1, h2]
  · intro s
    by_cases hs : s = "" <;> simp [batchVal, truthy, textProp, hs]

/-- C10 witness: the amended theorem applied to two concrete keys and a
single fetched entry carrying a text field. -/
theorem assocBatchResults_total_witness :
    (assocBatchResults ["a", "b"]
      [Json.obj (.cons "text" (.str "hola") .nil)] []).map Prod.fst
      = ["a", "b"] ∧
    batchVal (some (Json.obj (.cons "text" (.str "hola") .nil))) = "hola" :=
  ⟨(assocBatchResults_total ["a", "b"]
      [Json.obj (.cons "text" (.str "hola") .nil)] (by decide)).1,
   (assocBatchResults_total ["a", "b"]
      [Json.obj (.cons "text" (.str "hola") .nil)] (by decide)).2.2.2.1
      (Json.obj (.cons "text" (.str "hola") .nil)) "hola" rfl rfl⟩

/-! ## Claim C2: validateKeyAndPlaceholderParity -/

/-- The keys of the source map absent from the target map, in source order. -/
def missingKeys (s t : FlatMap) : List String :=
  (s.map Prod.fst).filter (fun k => !fmHasKey t k)

/-- The keys of the target map absent from the source map, in target order. -/
def extraKeys (s t : FlatMap) : List String :=
  (t.map Prod.fst).filter (fun k => !fmHasKey s k)

/-- The placeholder diff the pass records for one source key, if any. -/
def phDiffOf (s t : FlatMap) (k : String) : Option PHDiff :=
  let srcPH := extractPlaceholdersOpt (fmGet s k)
  let tgtPH := extractPlaceholdersOpt (fmGet t k)
  let missingPH := srcPH.filter (fun p => !tgtPH.contains p)
  let extraPH := tgtPH.filter (fun p => !srcPH.contains p)
  if missingPH.length ≠ 0 ∨ extraPH.length ≠ 0 then some ⟨k, missingPH, extraPH⟩
  else none

/-- All placeholder diffs, over every source key. -/
def phDiffs (s t : FlatMap) : List PHDiff :=
  (s.map Prod.fst).filterMap (phDiffOf s t)

theorem foldl_keyParityStep (other : FlatMap) :
    (ks : List String) → ∀ acc, ks.foldl (keyParityStep other) acc
      = acc ++ ks.filter (fun k => !fmHasKey other k)
  | [] => by intro acc; simp
  | k :: ks => by
    intro acc
    by_cases h : fmHasKey other k = true <;>
      simp [keyParityStep, h, foldl_keyParityStep other ks]

theorem phStep_eq (s t : FlatMap) (acc : List PHDiff) (k : String) :
    phStep s t acc k = acc ++ (phDiffOf s t k).toList := by
  simp only [phStep, phDiffOf]
  split <;> simp_all

theorem foldl_phStep (s t : FlatMap) :
    (ks : List String) → ∀ acc, ks.foldl (phStep s t) acc
      = acc ++ ks.filterMap (phDiffOf s t)
  | [] => by intro acc; simp
  | k :: ks => by
    intro acc
    simp only [List.foldl_cons, List.filterMap_cons, phStep_eq,
      foldl_phStep s t ks]
    cases phDiffOf s t k <;> simp

theorem phDiffOf_eq_none_iff (s t : FlatMap) (k : String) :
    phDiffOf s t k = none ↔
      ((∀ p ∈ extractPlaceholdersOpt (fmGet s k),
          p ∈ extractPlaceholdersOpt (fmGet t k)) ∧
       (∀ p ∈ extractPlaceholdersOpt (fmGet t k),
          p ∈ extractPlaceholdersOpt (fmGet s k))) := by
  have hite : ∀ (c : Prop) (inst : Decidable c) (d : PHDiff),
      (@ite _ c inst (some d) none = none) ↔ ¬c := by
    intro c inst d
    split <;> simp_all
  simp only [phDiffOf]
  rw [hite]
  simp [List.filter_eq_nil_iff, List.length_eq_zero, not_or]

/-- C2 counterexample: with source a: "Hi {x}" and an empty target map, the
key a is not shared by both maps, yet the placeholder pass reports a
mismatch entry for it. -/
theorem validate_reports_placeholder_on_unshared_key :
    (validateKeyAndPlaceholderParity [("a", Json.str "Hi {x}")] []).errors
      = [VErr.missing_keys ["a"],
         VErr.placeholder_mismatch [⟨"a", ["x"], []⟩]] ∧
    fmHasKey [] "a" = false := ⟨rfl, rfl⟩

/-- C2 amended: the validator reports the source keys absent from the target
as missing keys, the target keys absent from the source as extra keys, and a
placeholder diff for every source key — not only for shared keys — where an
absent target value contributes no placeholders; ok is true exactly when all
three groups are empty. -/
theorem validateKeyAndPlaceholderParity_spec (s t : FlatMap) :
    ((validateKeyAndPlaceholderParity s t).errors
      = (if missingKeys s t ≠ [] then [VErr.missing_keys (missingKeys s t)]
         else []) ++
        (if extraKeys s t ≠ [] then [VErr.extra_keys (extraKeys s t)]
         else []) ++
        (if phDiffs s t ≠ [] then [VErr.placeholder_mismatch (phDiffs s t)]
         else [])) ∧
    ((validateKeyAndPlaceholderParity s t).ok = true ↔
      (∀ k ∈ s.map Prod.fst, fmHasKey t k = true) ∧
      (∀ k ∈ t.map Prod.fst, fmHasKey s k = true) ∧
      (∀ k ∈ s.map Prod.fst,
        (∀ p ∈ extractPlaceholdersOpt (fmGet s k),
          p ∈ extractPlaceholdersOpt (fmGet t k)) ∧
        (∀ p ∈ extractPlaceholdersOpt (fmGet t k),
          p ∈ extractPlaceholdersOpt (fmGet s k)))) := by
  have hM : (s.map Prod.fst).foldl (keyParityStep t) [] = missingKeys s t := by
    rw [foldl_keyParityStep]; rfl
  have hE : (t.map Prod.fst).foldl (keyParityStep s) [] = extraKeys s t := by
    rw [foldl_keyParityStep]; rfl
  have hP : (s.map Prod.fst).foldl (phStep s t) [] = phDiffs s t := by
    rw [foldl_phStep]; rfl
  constructor
  · simp only [validateKeyAndPlaceholderParity, hM, hE, hP,
      List.length_eq_zero, ne_eq]
  · simp only [validateKeyAndPlaceholderParity, hM, hE, hP,
      List.length_eq_zero, ne_eq, decide_eq_true_eq]
    rw [List.append_eq_nil, List.append_eq_nil]
    constructor
    · rintro ⟨⟨h1, h2⟩, h3⟩
      have hMnil : missingKeys s t = [] := by
        by_contra hne; simp [hne] at h1
      have hEnil : extraKeys s t = [] := by
        by_contra hne; simp [hne] at h2
      have hPnil : phDiffs s t = [] := by
        by_contra hne; simp [hne] at h3
      simp only [missingKeys, List.filter_eq_nil_iff] at hMnil
      simp only [extraKeys, List.filter_eq_nil_iff] at hEnil
      simp only [phDiffs, List.filterMap_eq_nil_iff] at hPnil
      refine ⟨?_, ?_, ?_⟩
      · intro k hk
        simpa using hMnil k hk
      · intro k hk
        simpa using hEnil k hk
      · intro k hk
        exact (phDiffOf_eq_none_iff s t k).mp (hPnil k hk)
    · rintro ⟨h1, h2, h3⟩
      have hMnil : missingKeys s t = [] := by
        simp only [missingKeys]
        exact List.filter_eq_nil_iff.mpr (fun k hk => by simp [h1 k hk])
      have hEnil : extraKeys s t = [] := by
        simp only [extraKeys]
        exact List.filter_eq_nil_iff.mpr (fun k hk => by simp [h2 k hk])
      have hPnil : phDiffs s t = [] := by
        simp only [phDiffs]
        exact List.filterMap_eq_nil_iff.mpr
          (fun k hk => (phDiffOf_eq_none_iff s t k).mpr (h3 k hk))
      simp [hMnil, hEnil, hPnil]

/-! ## Claims C3, C4, C5: the per-pair pipeline -/

theorem finishPair_fields (env : PairEnv) (fs tf : FlatMap) (ub : Bool)
    (calls : List String) :
    (finishPair env fs tf ub calls).usedFallback = ub ∧
    (finishPair env fs tf ub calls).fallbackCalls = calls := by
  unfold finishPair
  repeat' split
  all_goals exact ⟨rfl, rfl⟩

theorem finishPair_failed_cases (env : PairEnv) (fs tf : FlatMap) (ub : Bool)
    (calls : List String) :
    ((finishPair env fs tf ub calls).failed = some .validation →
      (finishPair env fs tf ub calls).wroteFile = false ∧
      (finishPair env fs tf ub calls).cleanupRan = false) ∧
    (∀ e, (finishPair env fs tf ub calls).failed = some (.cleanup e) →
      (finishPair env fs tf ub calls).wroteFile = true ∧
      (finishPair env fs tf ub calls).cleanupRan = true) := by
  unfold finishPair
  repeat' split
  all_goals simp

theorem fallbackPair_cases (env : PairEnv) (fs : FlatMap) (t : PairTrace)
    (h : fallbackPair env fs = some t) :
    (∃ e, t.failed = some (.fallbackTranslate e) ∧ t.wroteFile = false ∧
      t.cleanupRan = false) ∨
    (∃ tf ub calls, t = finishPair env fs tf ub calls) := by
  unfold fallbackPair at h
  rcases hrf : runFallback env.perString fs with ⟨calls, res⟩
  rw [hrf] at h
  cases res with
  | error e =>
    cases h
    exact Or.inl ⟨e, rfl, rfl, rfl⟩
  | ok pairs =>
    cases h
    exact Or.inr ⟨_, _, _, rfl⟩

theorem translateModuleLocale_cases (env : PairEnv) (t : PairTrace)
    (h : translateModuleLocale env = some t) :
    (t.failed = some .read ∧ t.wroteFile = false ∧ t.cleanupRan = false) ∨
    (∃ e, t.failed = some (.staging e) ∧ t.wroteFile = false ∧
      t.cleanupRan = false ∧ t.usedFallback = false) ∨
    (∃ e, t.failed = some (.fallbackTranslate e) ∧ t.wroteFile = false ∧
      t.cleanupRan = false) ∨
    (∃ fs tf ub calls, t = finishPair env fs tf ub calls) := by
  unfold translateModuleLocale at h
  repeat' split at h
  all_goals try simp only [] at h
  all_goals first
    | exact Option.noConfusion h
    | (cases h; exact Or.inl ⟨rfl, rfl, rfl⟩)
    | (cases h; exact Or.inr (Or.inl ⟨_, rfl, rfl, rfl, rfl⟩))
    | (cases h; exact Or.inr (Or.inr (Or.inr ⟨_, _, _, _, rfl⟩)))
    | exact (fallbackPair_cases _ _ t h).elim
        (fun ⟨e, h1, h2, h3⟩ => Or.inr (Or.inr (Or.inl ⟨e, h1, h2, h3⟩)))
        (fun ⟨tf, ub, calls, ht⟩ =>
          Or.inr (Or.inr (Or.inr ⟨_, tf, ub, calls, ht⟩)))

/-- C3 amended: a validation failure throws before the write and before the
cleanup step — the pair is marked failed, no local file is written, and the
remote cleanup step is skipped (it runs only after a successful write). -/
theorem validation_failure_no_write_no_cleanup (env : PairEnv) (t : PairTrace)
    (h : translateModuleLocale env = some t)
    (hv : t.failed = some .validation) :
    t.wroteFile = false ∧ t.cleanupRan = false := by
  rcases translateModuleLocale_cases env t h with
    ⟨hf, _, _⟩ | ⟨e, hf, _, _, _⟩ | ⟨e, hf, _, _⟩ | ⟨fs, tf, ub, calls, ht⟩
  · rw [hv] at hf; exact absurd hf (by simp)
  · rw [hv] at hf; exact absurd hf (by simp)
  · rw [hv] at hf; exact absurd hf (by simp)
  · subst ht
    exact (finishPair_failed_cases env fs tf ub calls).1 hv

/-- The environment of a pair whose per-string translation drops the x
placeholder, so validation fails. -/
def envValidationFail : PairEnv :=
  { source := some (.obj (.cons "a" (.str "Hi {x}") .nil)),
    stage := .ok (), forceSync := true, hasRoleArn := true,
    batchStart := .ok (), polls := [], fetched := .ok [],
    perString := fun _ => .ok "Hola",
    writeFile := .ok (), cleanupInput := .ok (), cleanupOutputs := .ok () }

/-- C3 counterexample: on this validation-failing pair the pair is marked
failed with no file written, but the cleanup step does not run, contrary to
the claim that cleanup is still executed. -/
theorem validation_failure_cleanup_counterexample :
    (translateModuleLocale envValidationFail).map PairTrace.failed
      = some (some .validation) ∧
    (translateModuleLocale envValidationFail).map PairTrace.wroteFile
      = some false ∧
    (translateModuleLocale envValidationFail).map PairTrace.cleanupRan
      = some false := ⟨rfl, rfl, rfl⟩

/-- C3 witness: the amended theorem applied to the concrete
validation-failing pair. -/
theorem validation_failure_no_write_no_cleanup_witness :
    ∃ t, translateModuleLocale envValidationFail = some t ∧
      t.wroteFile = false ∧ t.cleanupRan = false :=
  ⟨{ failed := some .validation, wroteFile := false, cleanupRan := false,
     usedFallback := true, fallbackCalls := ["Hi {x}"], written := none },
   rfl,
   validation_failure_no_write_no_cleanup envValidationFail _ rfl rfl⟩

/-- C5 amended: a rejection inside the S3 cleanup step propagates uncaught
out of translateModuleLocale, so the run loop records the pair as failed even
though its output file was already written successfully. -/
theorem cleanup_failure_marks_pair_failed (env : PairEnv) (t : PairTrace)
    (e : String) (h : translateModuleLocale env = some t)
    (hc : t.failed = some (.cleanup e)) :
    t.wroteFile = true ∧ t.cleanupRan = true := by
  rcases translateModuleLocale_cases env t h with
    ⟨hf, _, _⟩ | ⟨e', hf, _, _, _⟩ | ⟨e', hf, _, _⟩ | ⟨fs, tf, ub, calls, ht⟩
  · rw [hc] at hf; exact absurd hf (by simp)
  · rw [hc] at hf; exact absurd hf (by simp)
  · rw [hc] at hf; exact absurd hf (by simp)
  · subst ht
    exact (finishPair_failed_cases env fs tf ub calls).2 e hc

/-- The environment of an otherwise fully successful pair whose staged-input
delete rejects during cleanup. -/
def envCleanupFail : PairEnv :=
  { source := some (.obj (.cons "a" (.str "hello") .nil)),
    stage := .ok (), forceSync := true, hasRoleArn := true,
    batchStart := .ok (), polls := [], fetched := .ok [],
    perString := fun s => .ok s,
    writeFile := .ok (), cleanupInput := .error "boom",
    cleanupOutputs := .ok () }

/-- C5 counterexample: a cleanup rejection on an otherwise-successful pair is
raised to the run loop — the pair ends up failed (failed is not none) even
though its file was written, contrary to the claim that cleanup failures are
never raised. -/
theorem cleanup_failure_counterexample :
    (translateModuleLocale envCleanupFail).map PairTrace.failed
      = some (some (.cleanup "boom")) ∧
    (translateModuleLocale envCleanupFail).map PairTrace.wroteFile
      = some true := ⟨rfl, rfl⟩

/-- C5 witness: the amended theorem applied to the concrete
cleanup-failing pair. -/
theorem cleanup_failure_marks_pair_failed_witness :
    ∃ t, translateModuleLocale envCleanupFail = some t ∧
      t.wroteFile = true ∧ t.cleanupRan = true :=
  ⟨{ failed := some (.cleanup "boom"), wroteFile := true, cleanupRan := true,
     usedFallback := true, fallbackCalls := ["hello"],
     written := some (.cons "a" (.str "hello") .nil) },
   rfl,
   cleanup_failure_marks_pair_failed envCleanupFail _ "boom" rfl rfl⟩

theorem runFallback_calls_of_ok (f : String → Except String String) :
    (l : FlatMap) → (∀ s, ∃ r, f s = .ok r) →
      (runFallback f l).1 = l.map (fun p => textArg p.2)
  | [] => by intro _; rfl
  | (k, v) :: rest => by
    intro hok
    obtain ⟨r, hr⟩ := hok (textArg v)
    simp [runFallback, hr, runFallback_calls_of_ok f rest hok]

/-- C4 amended: once the staged upload has succeeded and the batch path is
taken, a batch start rejection, a FAILED or STOPPED job, or a failing result
fetch is caught and triggers the per-string fallback for that same pair,
which issues one translateText call per source key in source order; a
staging failure, by contrast, happens before the batch try block and aborts
the pair without fallback (see the counterexample). -/
theorem batch_failure_triggers_fallback (env : PairEnv) (j : Json)
    (hsrc : env.source = some j) (hstage : env.stage = .ok ())
    (hfs : env.forceSync = false) (hra : env.hasRoleArn = true)
    (hfail : (∃ e, env.batchStart = .error e) ∨
      (∃ r, waitForBatchCompletion env.polls = .thrown r) ∨
      (∃ d e, waitForBatchCompletion env.polls = .completed d ∧
        env.fetched = .error e)) :
    ∃ t, translateModuleLocale env = some t ∧ t.usedFallback = true ∧
      t.fallbackCalls = (runFallback env.perString (flattenJson j "" [])).1 ∧
      ((∀ s, ∃ r, env.perString s = .ok r) →
        t.fallbackCalls
          = (flattenJson j "" []).map (fun p => textArg p.2)) := by
  have hbatch :
      (if !env.forceSync && env.hasRoleArn then
        match env.batchStart with
        | .error _ => some none
        | .ok _ =>
          match waitForBatchCompletion env.polls with
          | .stillPolling => none
          | .thrown _ => some none
          | .completed _ =>
            match env.fetched with
            | .error _ => some none
            | .ok fetched =>
              some (some (assocBatchResults
                ((flattenJson j "" []).map Prod.fst) fetched []))
        else some none) = some (none : Option FlatMap) := by
    rw [hfs, hra]
    rcases hfail with ⟨e, he⟩ | ⟨r, hr⟩ | ⟨d, e, hd, he⟩
    · simp [he]
    · cases env.batchStart <;> simp [hr]
    · cases env.batchStart <;> simp [hd, he]
  rcases hrf : runFallback env.perString (flattenJson j "" []) with ⟨calls, res⟩
  have hcalls : calls = (runFallback env.perString (flattenJson j "" [])).1 := by
    rw [hrf]
  rw [translateModuleLocale, hsrc, hstage]
  simp only [hbatch, fallbackPair, hrf]
  cases res with
  | error e =>
    refine ⟨_, rfl, rfl, rfl, ?_⟩
    intro hok
    rw [hcalls, runFallback_calls_of_ok env.perString _ hok]
  | ok pairs =>
    refine ⟨_, rfl, ?_, ?_, ?_⟩
    · exact (finishPair_fields env _ _ _ _).1
    · exact (finishPair_fields env _ _ _ _).2
    · intro hok
      rw [(finishPair_fields env _ _ _ _).2, hcalls,
        runFallback_calls_of_ok env.perString _ hok]

/-- The environment of a pair whose staged-input upload rejects. -/
def envStagingFail : PairEnv :=
  { source := some (.obj (.cons "a" (.str "hello") .nil)),
    stage := .error "denied", forceSync := false, hasRoleArn := true,
    batchStart := .ok (),
    polls := [⟨"COMPLETED", none⟩], fetched := .ok [],
    perString := fun s => .ok s,
    writeFile := .ok (), cleanupInput := .ok (), cleanupOutputs := .ok () }

/-- C4 counterexample: a staging failure aborts the pair without any
fallback — the upload happens before the batch try/catch, so its rejection
propagates instead of triggering per-string translation. -/
theorem staging_failure_no_fallback_counterexample :
    (translateModuleLocale envStagingFail).map PairTrace.failed
      = some (some (.staging "denied")) ∧
    (translateModuleLocale envStagingFail).map PairTrace.usedFallback
      = some false ∧
    (translateModuleLocale envStagingFail).map PairTrace.fallbackCalls
      = some [] := ⟨rfl, rfl, rfl⟩

/-- C4 witness: the amended theorem applied to a pair whose batch job
reports FAILED, with an all-accepting per-string translator. -/
theorem batch_failure_triggers_fallback_witness :
    ∃ t, translateModuleLocale
      { source := some (.obj (.cons "a" (.str "hello") .nil)),
        stage := .ok (), forceSync := false, hasRoleArn := true,
        batchStart := .ok (), polls := [⟨"FAILED", some "quota"⟩],
        fetched := .ok [], perString := fun s => .ok s,
        writeFile := .ok (), cleanupInput := .ok (),
        cleanupOutputs := .ok () } = some t ∧
      t.usedFallback = true ∧
      t.fallbackCalls = (runFallback (fun s => .ok s)
        (flattenJson (.obj (.cons "a" (.str "hello") .nil)) "" [])).1 ∧
      ((∀ s, ∃ r, (fun s => (.ok s : Except String String)) s = .ok r) →
        t.fallbackCalls = (flattenJson (.obj (.cons "a" (.str "hello") .nil))
          "" []).map (fun p => textArg p.2)) :=
  batch_failure_triggers_fallback _ _ rfl rfl rfl rfl
    (Or.inr (Or.inl ⟨"quota", rfl⟩))

/-! ## Claims C6, C7: the run loop -/

/-- The progress events emitted by n consecutive pairs after start pairs
have already completed: counters start+1, ..., start+n, each with the fixed
total and its rounded percentage. -/
def progList (total start : Nat) : Nat → List (Nat × Nat × Nat)
  | 0 => []
  | n + 1 => (start + 1, total, percent (start + 1) total) ::
      progList total (start + 1) n

theorem progList_append (total : Nat) :
    (a : Nat) → ∀ start b,
      progList total start a ++ progList total (start + a) b
        = progList total start (a + b)
  | 0 => by intro start b; simp [progList]
  | a + 1 => by
    intro start b
    have h2 : a + 1 + b = (a + b) + 1 := by omega
    have h1 : start + (a + 1) = (start + 1) + a := by omega
    rw [h2]
    simp only [progList, List.cons_append]
    rw [h1, progList_append total a (start + 1) b]

theorem progList_map_fst (total : Nat) :
    (n : Nat) → ∀ start,
      (progList total start n).map (fun ev => ev.1)
        = (List.range n).map (fun i => start + i + 1)
  | 0 => by intro start; simp [progList]
  | n + 1 => by
    intro start
    rw [List.range_succ_eq_map]
    simp only [progList, List.map_cons, List.map_map]
    rw [progList_map_fst total n (start + 1)]
    simp only [Nat.add_zero, List.cons.injEq, true_and]
    congr 1
    funext i
    simp only [Function.comp]
    omega

theorem progList_mem (total : Nat) :
    (n : Nat) → ∀ start ev, ev ∈ progList total start n →
      ev.2.1 = total ∧ ev.2.2 = percent ev.1 total
  | 0 => by intro start ev h; simp [progList] at h
  | n + 1 => by
    intro start ev h
    simp only [progList, List.mem_cons] at h
    rcases h with h | h
    · subst h; exact ⟨rfl, rfl⟩
    · exact progList_mem total n (start + 1) ev h

theorem runTargets_spec (env : RunEnv) (total : Nat) (m : String) :
    (ts : List String) → ∀ completed,
      (∀ t ∈ ts, (translateModuleLocale (env.pairEnv m t)).isSome = true) →
      ∃ prs, runTargets env total m ts completed
          = some (completed + ts.length,
              progList total completed ts.length, prs) ∧
        prs.length = ts.length
  | [] => by
    intro completed _
    exact ⟨[], by simp [runTargets, progList], rfl⟩
  | t :: ts => by
    intro completed hterm
    obtain ⟨trace, htrace⟩ := Option.isSome_iff_exists.mp (hterm t (by simp))
    obtain ⟨prs, hrun, hlen⟩ := runTargets_spec env total m ts (completed + 1)
      (fun u hu => hterm u (by simp [hu]))
    refine ⟨(m, t, trace.failed) :: prs, ?_, by simp [hlen]⟩
    simp only [runTargets, htrace, hrun, progList, List.length_cons]
    congr 2
    omega

theorem runModules_spec (env : RunEnv) (total : Nat) :
    (ms : List String) → ∀ completed,
      (∀ m ∈ ms, ∀ t ∈ env.targets,
        (translateModuleLocale (env.pairEnv m t)).isSome = true) →
      ∃ prs, runModules env total ms completed
          = some (completed + ms.length * env.targets.length,
              progList total completed (ms.length * env.targets.length),
              prs) ∧
        prs.length = ms.length * env.targets.length
  | [] => by
    intro completed _
    exact ⟨[], by simp [runModules, progList], by simp⟩
  | m :: ms => by
    intro completed hterm
    obtain ⟨prs1, h1, hl1⟩ := runTargets_spec env total m env.targets completed
      (fun t ht => hterm m (by simp) t ht)
    obtain ⟨prs2, h2, hl2⟩ := runModules_spec env total ms
      (completed + env.targets.length)
      (fun m' hm' t ht => hterm m' (by simp [hm']) t ht)
    have hmul : (ms.length + 1) * env.targets.length
        = env.targets.length + ms.length * env.targets.length := by ring
    have hassoc : completed + env.targets.length
        + ms.length * env.targets.length
        = completed + (env.targets.length
          + ms.length * env.targets.length) := Nat.add_assoc _ _ _
    refine ⟨prs1 ++ prs2, ?_, ?_⟩
    · simp only [runModules, h1, h2, List.length_cons, hmul, hassoc,
        progList_append total env.targets.length completed
          (ms.length * env.targets.length)]
    · simp [hl1, hl2, hmul]

/-- A pair environment whose source read fails immediately (a benign,
always-terminating pair used by run-level witnesses). -/
def envNoOp : PairEnv :=
  { source := none, stage := .ok (), forceSync := true, hasRoleArn := false,
    batchStart := .ok (), polls := [], fetched := .ok [],
    perString := fun s => .ok s, writeFile := .ok (),
    cleanupInput := .ok (), cleanupOutputs := .ok () }

/-- C6 counterexample: a run whose base directory exists but which discovers
zero modules completes without raising (fatal none), while the actually
fatal condition is the absence of any base directory — so "discovering zero
modules" is not the condition on which the run raises. -/
theorem zero_modules_not_fatal_counterexample :
    generateBulkTranslations
      { baseDirsFound := true, modules := [], targets := ["ph", "vi"],
        pairEnv := fun _ _ => envNoOp }
      = some { fatal := none, totalPairs := 0, completedPairs := 0,
               progress := [(0, 0, 0)], pairResults := [] } ∧
    generateBulkTranslations
      { baseDirsFound := false, modules := [], targets := ["ph", "vi"],
        pairEnv := fun _ _ => envNoOp }
      = some { fatal := some "No i18n/18n base directory found",
               totalPairs := 0, completedPairs := 0, progress := [],
               pairResults := [] } := ⟨rfl, rfl⟩

/-- C6 amended: every per-pair failure is caught and the loop moves on — a
terminating run processes exactly |modules| × |targets| pairs regardless of
per-pair outcomes. The only discovery condition raised to the caller is the
absence of any i18n base directory; discovering zero modules under an
existing base directory yields a non-fatal empty run. -/
theorem run_fatal_iff_no_base_dirs (env : RunEnv)
    (hterm : ∀ m t, (translateModuleLocale (env.pairEnv m t)).isSome = true) :
    (env.baseDirsFound = false →
      ∃ r, generateBulkTranslations env = some r ∧ r.fatal.isSome = true) ∧
    (env.baseDirsFound = true →
      ∃ r, generateBulkTranslations env = some r ∧ r.fatal = none ∧
        r.pairResults.length = env.modules.length * env.targets.length) := by
  constructor
  · intro hb
    have heq : generateBulkTranslations env
        = some { fatal := some "No i18n/18n base directory found",
                 totalPairs := 0, completedPairs := 0, progress := [],
                 pairResults := [] } := by
      simp [generateBulkTranslations, hb]
    exact ⟨_, heq, rfl⟩
  · intro hb
    obtain ⟨prs, hrun, hlen⟩ := runModules_spec env
      (env.modules.length * env.targets.length) env.modules 0
      (fun m _ t _ => hterm m t)
    have heq : generateBulkTranslations env = some
        { fatal := none,
          totalPairs := env.modules.length * env.targets.length,
          completedPairs := env.modules.length * env.targets.length,
          progress := (0, env.modules.length * env.targets.length,
            percent 0 (env.modules.length * env.targets.length)) ::
            progList (env.modules.length * env.targets.length) 0
              (env.modules.length * env.targets.length),
          pairResults := prs } := by
      simp [generateBulkTranslations, hb, hrun]
    exact ⟨_, heq, rfl, by simp [hlen]⟩

/-- C6 witness: a one-module one-target run with an always-failing pair
still completes with fatal none and one recorded pair. -/
theorem run_fatal_iff_no_base_dirs_witness :
    ∃ r, generateBulkTranslations
      { baseDirsFound := true, modules := ["dashboard"], targets := ["ph"],
        pairEnv := fun _ _ => envNoOp } = some r ∧ r.fatal = none ∧
      r.pairResults.length = 1 := by
  have h := (run_fatal_iff_no_base_dirs
    { baseDirsFound := true, modules := ["dashboard"], targets := ["ph"],
      pairEnv := fun _ _ => envNoOp }
    (fun m t => rfl)).2 rfl
  simpa using h

/-- C7: the total pair count is |modules| × |targets|, fixed before the
loops; the completed counter starts at zero and is incremented by exactly
one after every pair regardless of outcome, ending equal to the total; a
progress event is emitted after every pair (plus the initial tick), carrying
completed/total and the rounded percentage. -/
theorem progress_counting (env : RunEnv)
    (hb : env.baseDirsFound = true)
    (hterm : ∀ m t, (translateModuleLocale (env.pairEnv m t)).isSome = true) :
    ∃ r, generateBulkTranslations env = some r ∧
      r.totalPairs = env.modules.length * env.targets.length ∧
      r.completedPairs = r.totalPairs ∧
      r.progress = (0, r.totalPairs, percent 0 r.totalPairs)
        :: progList r.totalPairs 0 r.totalPairs ∧
      r.progress.map (fun ev => ev.1) = List.range (r.totalPairs + 1) ∧
      (∀ ev ∈ r.progress, ev.2.1 = r.totalPairs ∧
        ev.2.2 = percent ev.1 r.totalPairs) := by
  obtain ⟨prs, hrun, hlen⟩ := runModules_spec env
    (env.modules.length * env.targets.length) env.modules 0
    (fun m _ t _ => hterm m t)
  have heq : generateBulkTranslations env = some
      { fatal := none,
        totalPairs := env.modules.length * env.targets.length,
        completedPairs := env.modules.length * env.targets.length,
        progress := (0, env.modules.length * env.targets.length,
          percent 0 (env.modules.length * env.targets.length)) ::
          progList (env.modules.length * env.targets.length) 0
            (env.modules.length * env.targets.length),
        pairResults := prs } := by
    simp [generateBulkTranslations, hb, hrun]
  refine ⟨_, heq, rfl, rfl, rfl, ?_, ?_⟩
  · show ((0, env.modules.length * env.targets.length,
        percent 0 (env.modules.length * env.targets.length)) ::
        progList (env.modules.length * env.targets.length) 0
          (env.modules.length * env.targets.length)).map (fun ev => ev.1)
      = List.range (env.modules.length * env.targets.length + 1)
    rw [List.range_succ_eq_map]
    simp only [List.map_cons, progList_map_fst]
    congr 2
    funext i
    omega
  · intro ev hev
    simp only [List.mem_cons] at hev
    rcases hev with hev | hev
    · subst hev; exact ⟨rfl, rfl⟩
    · exact progList_mem _ _ 0 ev hev

/-- C7 witness: a 2 × 2 run (with always-read-failing pairs) completes all
four pairs, with the progress counters 0, 1, 2, 3, 4. -/
theorem progress_counting_witness :
    ∃ r, generateBulkTranslations
      { baseDirsFound := true, modules := ["dashboard", "profile"],
        targets := ["ph", "vi"], pairEnv := fun _ _ => envNoOp }
      = some r ∧ r.totalPairs = 4 ∧ r.completedPairs = r.totalPairs ∧
      r.progress.map (fun ev => ev.1) = [0, 1, 2, 3, 4] := by
  obtain ⟨r, h1, h2, h3, _, h5, _⟩ := progress_counting
    { baseDirsFound := true, modules := ["dashboard", "profile"],
      targets := ["ph", "vi"], pairEnv := fun _ _ => envNoOp }
    rfl (fun m t => rfl)
  exact ⟨r, h1, h2, h3, by rw [h5, h2]; rfl⟩

/-! ## Claim C1: unflatten after flatten -/

/-- Whether a string is free of the dot separator. -/
def noDot (s : String) : Bool := !s.data.contains '.'

mutual
/-- Values of the trees on which the roundtrip is settled: leaves are
strings, numbers or booleans (no null, no arrays), nested objects are
nonempty and themselves good. -/
def goodVal : Json → Bool
  | .str _ => true
  | .num _ => true
  | .bool _ => true
  | .null => false
  | .arr _ => false
  | .obj o => (match o with | .nil => false | .cons _ _ _ => true) && goodObj o

/-- Field lists with nonempty dot-free pairwise-distinct keys and good
values. -/
def goodObj : JsonObj → Bool
  | .nil => true
  | .cons k v rest =>
    (k != "") && noDot k && !rest.hasKey k && goodVal v && goodObj rest
end

mutual
/-- The leaf paths of a tree, each as its component list, in flatten
order. -/
def flatPaths : JsonObj → List (List String × Json)
  | .nil => []
  | .cons k v rest => headPaths k v ++ flatPaths rest

/-- The leaf paths contributed by one field. -/
def headPaths (k : String) (v : Json) : List (List String × Json) :=
  match v with
  | .obj inner => (flatPaths inner).map (fun pw => (k :: pw.1, pw.2))
  | _ => [([k], v)]
end

/-- The dotted key a component path produces under a flatten prefix. -/
def extendKey (pre : String) (path : List String) : String :=
  path.foldl keyOf pre

/-- Sequential insertion of component paths: the unflatten loop once every
key has been split back into the component list it was built from. -/
def insertPaths : JsonObj → List (List String × Json) → Option JsonObj
  | root, [] => some root
  | root, (p, v) :: rest =>
    match insertGo root p v with
    | some root' => insertPaths root' rest
    | none => none

/-- Concatenation of object field lists. -/
def JsonObj.append : JsonObj → JsonObj → JsonObj
  | .nil, o => o
  | .cons k v rest, o => .cons k v (rest.append o)

theorem JsonObj.append_nil : (o : JsonObj) → o.append .nil = o
  | .nil => rfl
  | .cons k v rest => by rw [JsonObj.append, JsonObj.append_nil rest]

theorem JsonObj.hasKey_append : (a : JsonObj) → ∀ b k,
    (a.append b).hasKey k = (a.hasKey k || b.hasKey k)
  | .nil => fun b k => by simp [JsonObj.append, JsonObj.hasKey]
  | .cons k' v rest => fun b k => by
    simp [JsonObj.append, JsonObj.hasKey,
      JsonObj.hasKey_append rest b k, Bool.or_assoc]

theorem JsonObj.setKey_fresh : (o : JsonObj) → ∀ k v, o.hasKey k = false →
    o.setKey k v = o.append (.cons k v .nil)
  | .nil => fun k v _ => rfl
  | .cons k' v' rest => fun k v h => by
    simp only [JsonObj.hasKey, Bool.or_eq_false_iff] at h
    simp only [JsonObj.setKey, JsonObj.append]
    rw [if_neg (by simpa using h.1), JsonObj.setKey_fresh rest k v h.2]

theorem JsonObj.jsGet_setKey_self : (o : JsonObj) → ∀ k v,
    (o.setKey k v).jsGet k = some v
  | .nil => fun k v => by simp [JsonObj.setKey, JsonObj.jsGet]
  | .cons k' v' rest => fun k v => by
    by_cases h : k' = k
    · simp [JsonObj.setKey, JsonObj.jsGet, h]
    · simp [JsonObj.setKey, JsonObj.jsGet, h,
        JsonObj.jsGet_setKey_self rest k v]

theorem JsonObj.setKey_setKey : (o : JsonObj) → ∀ k a b,
    (o.setKey k a).setKey k b = o.setKey k b
  | .nil => fun k a b => by simp [JsonObj.setKey]
  | .cons k' v' rest => fun k a b => by
    by_cases h : k' = k
    · simp [JsonObj.setKey, h]
    · simp [JsonObj.setKey, h, JsonObj.setKey_setKey rest k a b]

theorem JsonObj.jsGet_eq_none : (o : JsonObj) → ∀ k, o.hasKey k = false →
    o.jsGet k = none
  | .nil => fun k _ => rfl
  | .cons k' v' rest => fun k h => by
    simp only [JsonObj.hasKey, Bool.or_eq_false_iff] at h
    simp only [JsonObj.jsGet, if_neg (by simpa using h.1)]
    exact JsonObj.jsGet_eq_none rest k h.2

theorem splitDotsAux_dot (cs : List Char) (acc : List Char) :
    splitDotsAux ('.' :: cs) acc
      = String.mk acc.reverse :: splitDotsAux cs [] := by
  simp [splitDotsAux]

theorem splitDotsAux_other (c : Char) (cs acc : List Char) (h : ¬ c = '.') :
    splitDotsAux (c :: cs) acc = splitDotsAux cs (c :: acc) := by
  simp [splitDotsAux, h]

theorem splitDotsAux_append_dot : (xs : List Char) → ∀ ys acc,
    splitDotsAux (xs ++ '.' :: ys) acc
      = splitDotsAux xs acc ++ splitDotsAux ys []
  | [] => fun ys acc => by
    rw [List.nil_append, splitDotsAux_dot, splitDotsAux]
    rfl
  | c :: cs => fun ys acc => by
    by_cases h : c = '.'
    · subst h
      rw [List.cons_append, splitDotsAux_dot, splitDotsAux_dot,
        splitDotsAux_append_dot cs ys []]
      rfl
    · rw [List.cons_append, splitDotsAux_other c _ _ h,
        splitDotsAux_other c _ _ h]
      exact splitDotsAux_append_dot cs ys (c :: acc)

theorem splitDotsAux_no_dot : (cs : List Char) → ∀ acc,
    cs.contains '.' = false →
    splitDotsAux cs acc = [String.mk (acc.reverse ++ cs)]
  | [] => fun acc _ => by simp [splitDotsAux]
  | c :: cs => fun acc h => by
    simp only [List.contains_cons, Bool.or_eq_false_iff] at h
    have hc' : ¬('.' = c) := by simpa using h.1
    have hc : ¬(c = '.') := fun hcc => hc' hcc.symm
    rw [splitDotsAux_other c _ _ hc, splitDotsAux_no_dot cs (c :: acc) h.2,
      List.reverse_cons, List.append_assoc]
    rfl

theorem splitDots_noDot (s : String) (h : noDot s = true) :
    splitDots s = [s] := by
  unfold splitDots
  rw [splitDotsAux_no_dot s.data [] (by simpa [noDot] using h)]
  rfl

theorem splitDots_append_dot (a b : String) (hb : noDot b = true) :
    splitDots (a ++ "." ++ b) = splitDots a ++ [b] := by
  unfold splitDots
  have hdata : (a ++ "." ++ b).data = a.data ++ '.' :: b.data := by
    simp [String.data_append]
  rw [hdata, splitDotsAux_append_dot a.data b.data [],
    splitDotsAux_no_dot b.data [] (by simpa [noDot] using hb)]
  rfl

theorem string_append_dot_ne_empty (a b : String) : a ++ "." ++ b ≠ "" := by
  intro h
  have hd := congrArg String.data h
  simp [String.data_append] at hd

theorem extendKey_cons (pre k : String) (path : List String) :
    extendKey pre (k :: path) = extendKey (keyOf pre k) path := rfl

theorem extendKey_splitDots : (path : List String) → ∀ pre, pre ≠ "" →
    (∀ c ∈ path, noDot c = true) →
    splitDots (extendKey pre path) = splitDots pre ++ path
  | [] => fun pre _ _ => by simp [extendKey]
  | k :: path => fun pre hpre hc => by
    rw [extendKey_cons]
    have hkey : keyOf pre k = pre ++ "." ++ k := by simp [keyOf, hpre]
    rw [hkey,
      extendKey_splitDots path (pre ++ "." ++ k)
        (string_append_dot_ne_empty pre k)
        (fun c hcc => hc c (by simp [hcc])),
      splitDots_append_dot pre k (hc k (by simp))]
    simp

theorem extendKey_root : (path : List String) → path ≠ [] →
    (∀ c ∈ path, c ≠ "" ∧ noDot c = true) →
    splitDots (extendKey "" path) = path
  | [] => fun h _ => absurd rfl h
  | k :: path => fun _ hc => by
    rw [extendKey_cons]
    have hk0 : keyOf "" k = k := by simp [keyOf]
    rw [hk0]
    rcases path with _ | ⟨p, ps⟩
    · exact splitDots_noDot k (hc k (by simp)).2
    · rw [extendKey_splitDots (p :: ps) k (hc k (by simp)).1
        (fun c hcc => (hc c (by simp [hcc])).2),
        splitDots_noDot k (hc k (by simp)).2]
      rfl

theorem flatPaths_shape : (entries : JsonObj) → ∀ pw, pw ∈ flatPaths entries →
    ∃ kk pp, pw.1 = kk :: pp ∧ entries.hasKey kk = true
  | .nil => by intro pw h; simp [flatPaths] at h
  | .cons k v rest => by
    intro pw h
    simp only [flatPaths, List.mem_append] at h
    rcases h with h | h
    · match v, h with
      | .obj inner, h =>
        simp only [headPaths, List.mem_map] at h
        obtain ⟨qw, _, hqw⟩ := h
        exact ⟨k, qw.1, by rw [← hqw], by simp [JsonObj.hasKey]⟩
      | .str s, h =>
        simp only [headPaths, List.mem_singleton] at h
        exact ⟨k, [], by rw [h], by simp [JsonObj.hasKey]⟩
      | .num n, h =>
        simp only [headPaths, List.mem_singleton] at h
        exact ⟨k, [], by rw [h], by simp [JsonObj.hasKey]⟩
      | .bool b, h =>
        simp only [headPaths, List.mem_singleton] at h
        exact ⟨k, [], by rw [h], by simp [JsonObj.hasKey]⟩
      | .null, h =>
        simp only [headPaths, List.mem_singleton] at h
        exact ⟨k, [], by rw [h], by simp [JsonObj.hasKey]⟩
      | .arr a, h =>
        simp only [headPaths, List.mem_singleton] at h
        exact ⟨k, [], by rw [h], by simp [JsonObj.hasKey]⟩
    · obtain ⟨kk, pp, h1, h2⟩ := flatPaths_shape rest pw h
      exact ⟨kk, pp, h1, by simp [JsonObj.hasKey, h2]⟩

theorem goodObj_cons_iff (k : String) (v : Json) (rest : JsonObj) :
    goodObj (.cons k v rest) = true ↔
      k ≠ "" ∧ noDot k = true ∧ rest.hasKey k = false ∧ goodVal v = true ∧
      goodObj rest = true := by
  simp [goodObj, Bool.and_eq_true, and_assoc]

theorem goodVal_obj_iff (inner : JsonObj) :
    goodVal (.obj inner) = true ↔ inner ≠ .nil ∧ goodObj inner = true := by
  cases inner <;> simp [goodVal]

theorem flatPaths_comps : (entries : JsonObj) → goodObj entries = true →
    ∀ pw ∈ flatPaths entries, ∀ c ∈ pw.1, c ≠ "" ∧ noDot c = true
  | .nil => by intro _ pw h; simp [flatPaths] at h
  | .cons k v rest => by
    intro hg pw h c hc
    obtain ⟨hk1, hk2, hk3, hgv, hgr⟩ := (goodObj_cons_iff k v rest).mp hg
    simp only [flatPaths, List.mem_append] at h
    rcases h with h | h
    · match v, h, hgv with
      | .obj inner, h, hgv =>
        obtain ⟨hne, hgi⟩ := (goodVal_obj_iff inner).mp hgv
        simp only [headPaths, List.mem_map] at h
        obtain ⟨qw, hqw, hpw⟩ := h
        rw [← hpw] at hc
        simp only [List.mem_cons] at hc
        rcases hc with hc | hc
        · subst hc; exact ⟨hk1, hk2⟩
        · exact flatPaths_comps inner hgi qw hqw c hc
      | .str s, h, _ =>
        simp only [headPaths, List.mem_singleton] at h
        rw [h] at hc
        simp only [List.mem_singleton] at hc
        subst hc; exact ⟨hk1, hk2⟩
      | .num n, h, _ =>
        simp only [headPaths, List.mem_singleton] at h
        rw [h] at hc
        simp only [List.mem_singleton] at hc
        subst hc; exact ⟨hk1, hk2⟩
      | .bool b, h, _ =>
        simp only [headPaths, List.mem_singleton] at h
        rw [h] at hc
        simp only [List.mem_singleton] at hc
        subst hc; exact ⟨hk1, hk2⟩
      | .null, h, hgv => exact absurd hgv (by simp [goodVal])
      | .arr a, h, hgv => exact absurd hgv (by simp [goodVal])
    · exact flatPaths_comps rest hgr pw h c hc

theorem flatPaths_ne_nil : (entries : JsonObj) → goodObj entries = true →
    entries ≠ .nil → flatPaths entries ≠ []
  | .nil => fun _ h => absurd rfl h
  | .cons k v rest => fun hg _ => by
    obtain ⟨_, _, _, hgv, _⟩ := (goodObj_cons_iff k v rest).mp hg
    simp only [flatPaths]
    intro hcontra
    rcases List.append_eq_nil.mp hcontra with ⟨h1, _⟩
    match v, h1, hgv with
    | .obj inner, h1, hgv =>
      obtain ⟨hne, hgi⟩ := (goodVal_obj_iff inner).mp hgv
      exact flatPaths_ne_nil inner hgi hne
        (by simpa [headPaths] using h1)
    | .str s, h1, _ => exact absurd h1 (by simp [headPaths])
    | .num n, h1, _ => exact absurd h1 (by simp [headPaths])
    | .bool b, h1, _ => exact absurd h1 (by simp [headPaths])
    | .null, _, hgv => exact absurd hgv (by simp [goodVal])
    | .arr a, _, hgv => exact absurd hgv (by simp [goodVal])

theorem extendKey_ne_of_head_ne (pre : String) (P : List String)
    (hH : ∀ path, path ≠ [] → (∀ c ∈ path, c ≠ "" ∧ noDot c = true) →
      splitDots (extendKey pre path) = P ++ path)
    (k1 k2 : String) (t1 t2 : List String)
    (hv1 : ∀ c ∈ k1 :: t1, c ≠ "" ∧ noDot c = true)
    (hv2 : ∀ c ∈ k2 :: t2, c ≠ "" ∧ noDot c = true)
    (hne : k1 ≠ k2) :
    extendKey pre (k1 :: t1) ≠ extendKey pre (k2 :: t2) := by
  intro heq
  have e1 := hH (k1 :: t1) (by simp) hv1
  have e2 := hH (k2 :: t2) (by simp) hv2
  rw [heq, e2] at e1
  have := List.append_cancel_left e1
  simp only [List.cons.injEq] at this
  exact hne this.1.symm

theorem fmHasKey_eq_false_iff (l : FlatMap) (k : String) :
    fmHasKey l k = false ↔ ∀ p ∈ l, p.1 ≠ k := by
  simp [fmHasKey]

theorem headPaths_head (k : String) (v : Json) :
    ∀ qw ∈ headPaths k v, ∃ pp, qw.1 = k :: pp := by
  intro qw h
  match v, h with
  | .obj inner, h =>
    simp only [headPaths, List.mem_map] at h
    obtain ⟨pw, _, hpw⟩ := h
    exact ⟨pw.1, by rw [← hpw]⟩
  | .str s, h =>
    simp only [headPaths, List.mem_singleton] at h
    exact ⟨[], by rw [h]⟩
  | .num n, h =>
    simp only [headPaths, List.mem_singleton] at h
    exact ⟨[], by rw [h]⟩
  | .bool b, h =>
    simp only [headPaths, List.mem_singleton] at h
    exact ⟨[], by rw [h]⟩
  | .null, h =>
    simp only [headPaths, List.mem_singleton] at h
    exact ⟨[], by rw [h]⟩
  | .arr a, h =>
    simp only [headPaths, List.mem_singleton] at h
    exact ⟨[], by rw [h]⟩

theorem flattenObj_paths : (entries : JsonObj) → ∀ (pre : String)
    (P : List String) (out : FlatMap),
    goodObj entries = true →
    (∀ path, path ≠ [] → (∀ c ∈ path, c ≠ "" ∧ noDot c = true) →
      splitDots (extendKey pre path) = P ++ path) →
    (∀ pw ∈ flatPaths entries, fmHasKey out (extendKey pre pw.1) = false) →
    flattenObj entries pre out
      = out ++ (flatPaths entries).map (fun pw => (extendKey pre pw.1, pw.2))
  | .nil => fun pre P out _ _ _ => by simp [flattenObj, flatPaths]
  | .cons k v rest => fun pre P out hg hH hfresh => by
    obtain ⟨hk1, hk2, hk3, hgv, hgr⟩ := (goodObj_cons_iff k v rest).mp hg
    have hcomps := flatPaths_comps (.cons k v rest) hg
    have hhead : flattenVal v (keyOf pre k) out
        = out ++ (headPaths k v).map (fun pw => (extendKey pre pw.1, pw.2)) := by
      match v, hgv with
      | .obj inner, hgv =>
        obtain ⟨hne, hgi⟩ := (goodVal_obj_iff inner).mp hgv
        have hH2 : ∀ path, path ≠ [] → (∀ c ∈ path, c ≠ "" ∧ noDot c = true) →
            splitDots (extendKey (keyOf pre k) path) = (P ++ [k]) ++ path := by
          intro path hpne hcomp
          have hx := hH (k :: path) (by simp)
            (fun c hcc => by
              rcases List.mem_cons.mp hcc with hcc | hcc
              · subst hcc; exact ⟨hk1, hk2⟩
              · exact hcomp c hcc)
          rw [extendKey_cons] at hx
          rw [hx]
          simp [List.append_assoc]
        have hfresh2 : ∀ qw ∈ flatPaths inner,
            fmHasKey out (extendKey (keyOf pre k) qw.1) = false := by
          intro qw hqw
          have hmem : (k :: qw.1, qw.2) ∈ flatPaths (.cons k (.obj inner) rest) := by
            simp only [flatPaths, List.mem_append]
            exact Or.inl (by
              simp only [headPaths]
              exact List.mem_map.mpr ⟨qw, hqw, rfl⟩)
          exact hfresh _ hmem
        rw [show flattenVal (.obj inner) (keyOf pre k) out
            = flattenObj inner (keyOf pre k) out from rfl]
        rw [flattenObj_paths inner (keyOf pre k) (P ++ [k]) out hgi hH2 hfresh2]
        congr 1
        simp only [headPaths, List.map_map]
        rfl
      | .str s, _ =>
        rw [show flattenVal (.str s) (keyOf pre k) out
            = fmSet out (keyOf pre k) (.str s) from rfl]
        have hf : fmHasKey out (keyOf pre k) = false :=
          hfresh ([k], .str s)
            (by simp only [flatPaths, List.mem_append, headPaths]
                exact Or.inl (by simp))
        rw [fmSet_of_not_hasKey out _ _ hf]
        rfl
      | .num n, _ =>
        rw [show flattenVal (.num n) (keyOf pre k) out
            = fmSet out (keyOf pre k) (.num n) from rfl]
        have hf : fmHasKey out (keyOf pre k) = false :=
          hfresh ([k], .num n)
            (by simp only [flatPaths, List.mem_append, headPaths]
                exact Or.inl (by simp))
        rw [fmSet_of_not_hasKey out _ _ hf]
        rfl
      | .bool b, _ =>
        rw [show flattenVal (.bool b) (keyOf pre k) out
            = fmSet out (keyOf pre k) (.bool b) from rfl]
        have hf : fmHasKey out (keyOf pre k) = false :=
          hfresh ([k], .bool b)
            (by simp only [flatPaths, List.mem_append, headPaths]
                exact Or.inl (by simp))
        rw [fmSet_of_not_hasKey out _ _ hf]
        rfl
      | .null, hgv => exact absurd hgv (by simp [goodVal])
      | .arr a, hgv => exact absurd hgv (by simp [goodVal])
    have hfresh3 : ∀ pw ∈ flatPaths rest,
        fmHasKey (out ++ (headPaths k v).map
            (fun pw => (extendKey pre pw.1, pw.2)))
          (extendKey pre pw.1) = false := by
      intro pw hpw
      rw [fmHasKey_append, Bool.or_eq_false_iff]
      obtain ⟨kk, pp, hpw1, hkk⟩ := flatPaths_shape rest pw hpw
      constructor
      · exact hfresh pw (by
          simp only [flatPaths, List.mem_append]
          exact Or.inr hpw)
      · rw [fmHasKey_eq_false_iff]
        intro p hp
        simp only [List.mem_map] at hp
        obtain ⟨qw, hqw, hpq⟩ := hp
        obtain ⟨qq, hqw1⟩ := headPaths_head k v qw hqw
        rw [← hpq]
        show extendKey pre qw.1 ≠ extendKey pre pw.1
        rw [hqw1, hpw1]
        apply extendKey_ne_of_head_ne pre P hH
        · rw [← hqw1]
          exact fun c hcc => hcomps qw
            (by simp only [flatPaths, List.mem_append]; exact Or.inl hqw) c hcc
        · rw [← hpw1]
          exact fun c hcc => hcomps pw
            (by simp only [flatPaths, List.mem_append]; exact Or.inr hpw) c hcc
        · intro hkeq
          rw [← hkeq] at hkk
          simp [hk3] at hkk
    calc flattenObj (.cons k v rest) pre out
        = flattenObj rest pre (flattenVal v (keyOf pre k) out) := rfl
      _ = flattenObj rest pre
            (out ++ (headPaths k v).map (fun pw => (extendKey pre pw.1, pw.2))) := by
          rw [hhead]
      _ = out ++ (headPaths k v).map (fun pw => (extendKey pre pw.1, pw.2))
            ++ (flatPaths rest).map (fun pw => (extendKey pre pw.1, pw.2)) :=
          flattenObj_paths rest pre P _ hgr hH hfresh3
      _ = out ++ (flatPaths (.cons k v rest)).map
            (fun pw => (extendKey pre pw.1, pw.2)) := by
          simp [flatPaths, List.map_append, List.append_assoc]

theorem JsonObj.append_cons_nil : (acc : JsonObj) → ∀ k v rest,
    (acc.append (.cons k v .nil)).append rest = acc.append (.cons k v rest)
  | .nil => fun k v rest => rfl
  | .cons k' v' acc => fun k v rest => by
    simp [JsonObj.append, JsonObj.append_cons_nil acc k v rest]

theorem insertPaths_append :
    (l1 : List (List String × Json)) → ∀ (root : JsonObj) l2,
      insertPaths root (l1 ++ l2)
        = match insertPaths root l1 with
          | some r => insertPaths r l2
          | none => none
  | [] => fun root l2 => by simp [insertPaths]
  | (p, v) :: l1 => fun root l2 => by
    simp only [List.cons_append, insertPaths]
    cases insertGo root p v with
    | none => rfl
    | some r => exact insertPaths_append l1 r l2

theorem insertGo_cons_cons (cur : JsonObj) (k p1 : String) (ps : List String)
    (w : Json) (hk : cur.hasKey k = false) :
    insertGo cur (k :: p1 :: ps) w
      = (insertGo .nil (p1 :: ps) w).map (fun o' => cur.setKey k (.obj o')) := by
  rw [insertGo, JsonObj.jsGet_eq_none cur k hk]
  simp

theorem insertGo_cons_obj (cur : JsonObj) (k p1 : String) (ps : List String)
    (w : Json) (q : JsonObj) (hk : cur.jsGet k = some (.obj q)) :
    insertGo cur (k :: p1 :: ps) w
      = (insertGo q (p1 :: ps) w).map (fun o' => cur.setKey k (.obj o')) := by
  rw [insertGo, hk]
  simp

theorem insertPaths_under_key :
    (qs : List (List String × Json)) → ∀ (q0 q1 acc : JsonObj) (k : String),
      (∀ pw ∈ qs, pw.1 ≠ []) →
      insertPaths q0 qs = some q1 →
      insertPaths (acc.setKey k (.obj q0))
        (qs.map (fun pw => (k :: pw.1, pw.2)))
        = some (acc.setKey k (.obj q1))
  | [] => fun q0 q1 acc k _ h => by
    simp only [insertPaths, Option.some.injEq] at h
    rw [List.map_nil, insertPaths, h]
  | (p, w) :: qs => fun q0 q1 acc k hne h => by
    obtain ⟨p1, ps, hp⟩ : ∃ p1 ps, p = p1 :: ps := by
      rcases p with _ | ⟨p1, ps⟩
      · exact absurd rfl (hne ([], w) (by simp))
      · exact ⟨p1, ps, rfl⟩
    subst hp
    simp only [insertPaths] at h
    rcases hg : insertGo q0 (p1 :: ps) w with _ | q0'
    · rw [hg] at h; exact absurd h (by simp)
    · rw [hg] at h
      simp only [List.map_cons, insertPaths]
      rw [insertGo_cons_obj (acc.setKey k (.obj q0)) k p1 ps w q0
        (JsonObj.jsGet_setKey_self acc k (.obj q0)), hg]
      simp only [Option.map_some, JsonObj.setKey_setKey]
      exact insertPaths_under_key qs q0' q1 acc k
        (fun pw hpw => hne pw (by simp [hpw])) h

theorem insertPaths_flatPaths : (entries : JsonObj) → ∀ (acc : JsonObj),
    goodObj entries = true →
    (∀ k, entries.hasKey k = true → acc.hasKey k = false) →
    insertPaths acc (flatPaths entries) = some (acc.append entries)
  | .nil => fun acc _ _ => by
    rw [flatPaths, insertPaths, JsonObj.append_nil]
  | .cons k v rest => fun acc hg hfresh => by
    obtain ⟨hk1, hk2, hk3, hgv, hgr⟩ := (goodObj_cons_iff k v rest).mp hg
    have hacc_k : acc.hasKey k = false :=
      hfresh k (by simp [JsonObj.hasKey])
    have hrest : ∀ kk, rest.hasKey kk = true →
        (acc.append (.cons k v .nil)).hasKey kk = false := by
      intro kk hkk
      rw [JsonObj.hasKey_append, Bool.or_eq_false_iff]
      refine ⟨hfresh kk (by simp [JsonObj.hasKey, hkk]), ?_⟩
      have hkne : ¬(k = kk) := by
        intro hkeq
        rw [hkeq] at hk3
        simp [hk3] at hkk
      simp [JsonObj.hasKey, hkne]
    have hheadstep : insertPaths acc (headPaths k v)
        = some (acc.append (.cons k v .nil)) := by
      match v, hgv with
      | .obj inner, hgv =>
        obtain ⟨hne, hgi⟩ := (goodVal_obj_iff inner).mp hgv
        have hinner := insertPaths_flatPaths inner .nil hgi
          (fun _ _ => rfl)
        rw [JsonObj.append] at hinner
        obtain ⟨q1, w1, qs, hsplit⟩ :
            ∃ q1 w1 qs, flatPaths inner = (q1, w1) :: qs := by
          rcases hfp : flatPaths inner with _ | ⟨⟨q1, w1⟩, qs⟩
          · exact absurd hfp (flatPaths_ne_nil inner hgi hne)
          · exact ⟨q1, w1, qs, rfl⟩
        rw [hsplit] at hinner
        simp only [insertPaths] at hinner
        rcases hg1 : insertGo .nil q1 w1 with _ | o1
        · rw [hg1] at hinner; exact absurd hinner (by simp)
        · rw [hg1] at hinner
          obtain ⟨q11, qq1, hq1⟩ : ∃ q11 qq1, q1 = q11 :: qq1 := by
            rcases q1 with _ | ⟨q11, qq1⟩
            · obtain ⟨kk, pp, habs, _⟩ :=
                flatPaths_shape inner (([] : List String), w1)
                  (by rw [hsplit]; simp)
              exact absurd habs (by simp)
            · exact ⟨q11, qq1, rfl⟩
          rw [show headPaths k (.obj inner)
              = (flatPaths inner).map (fun pw => (k :: pw.1, pw.2)) from rfl,
            hsplit, List.map_cons]
          simp only [insertPaths]
          rw [hq1] at hg1 ⊢
          rw [insertGo_cons_cons acc k q11 qq1 w1 hacc_k, hg1]
          show insertPaths (acc.setKey k (.obj o1))
              (qs.map (fun pw => (k :: pw.1, pw.2)))
            = some (acc.append (.cons k (.obj inner) .nil))
          have hthread := insertPaths_under_key qs o1
            (JsonObj.nil.append inner) acc k
            (fun pw hpw => by
              obtain ⟨kk, pp, h1, _⟩ := flatPaths_shape inner pw
                (by rw [hsplit]; simp [hpw])
              simp [h1])
            hinner
          rw [hthread, show JsonObj.nil.append inner = inner from rfl,
            JsonObj.setKey_fresh acc k _ hacc_k]
      | .str s, _ =>
        rw [show headPaths k (.str s) = [([k], .str s)] from rfl,
          show insertPaths acc [([k], Json.str s)]
            = some (acc.setKey k (.str s)) from rfl,
          JsonObj.setKey_fresh acc k _ hacc_k]
      | .num n, _ =>
        rw [show headPaths k (.num n) = [([k], .num n)] from rfl,
          show insertPaths acc [([k], Json.num n)]
            = some (acc.setKey k (.num n)) from rfl,
          JsonObj.setKey_fresh acc k _ hacc_k]
      | .bool b, _ =>
        rw [show headPaths k (.bool b) = [([k], .bool b)] from rfl,
          show insertPaths acc [([k], Json.bool b)]
            = some (acc.setKey k (.bool b)) from rfl,
          JsonObj.setKey_fresh acc k _ hacc_k]
      | .null, hgv => exact absurd hgv (by simp [goodVal])
      | .arr a, hgv => exact absurd hgv (by simp [goodVal])
    rw [flatPaths, insertPaths_append (headPaths k v) acc (flatPaths rest),
      hheadstep]
    show insertPaths (acc.append (.cons k v .nil)) (flatPaths rest)
      = some (acc.append (.cons k v rest))
    rw [insertPaths_flatPaths rest (acc.append (.cons k v .nil)) hgr hrest,
      JsonObj.append_cons_nil acc k v rest]

theorem unflattenGo_map_paths :
    (ps : List (List String × Json)) → ∀ (root : JsonObj)
      (F : List String → String),
      (∀ pw ∈ ps, splitDots (F pw.1) = pw.1) →
      unflattenGo root (ps.map (fun pw => (F pw.1, pw.2)))
        = insertPaths root ps
  | [] => fun root F _ => rfl
  | (p, v) :: ps => fun root F h => by
    simp only [List.map_cons, unflattenGo, insertPaths, h (p, v) (by simp)]
    cases insertGo root p v with
    | none => rfl
    | some root' =>
      exact unflattenGo_map_paths ps root' F
        (fun pw hpw => h pw (by simp [hpw]))

/-- C1 counterexample: a tree whose only leaf is a string — but whose key
contains a dot — does not round-trip: unflatten splits the dotted key back
into nesting that was never there. -/
theorem unflatten_flatten_dotted_key_counterexample :
    flattenJson (.obj (.cons "a.b" (.str "x") .nil)) "" []
      = [("a.b", Json.str "x")] ∧
    unflattenJson (flattenJson (.obj (.cons "a.b" (.str "x") .nil)) "" [])
      = some (.cons "a" (.obj (.cons "b" (.str "x") .nil)) .nil) ∧
    Json.obj (.cons "a" (.obj (.cons "b" (.str "x") .nil)) .nil)
      ≠ .obj (.cons "a.b" (.str "x") .nil) := ⟨rfl, rfl, by decide⟩

/-- C1 amended: for every object tree whose leaves are strings, numbers or
booleans (no arrays, no nulls), whose keys are nonempty and dot-free, and
whose nested objects are nonempty, unflattening the flattening of the tree
yields the tree again. -/
theorem unflatten_flatten_roundtrip (entries : JsonObj)
    (hg : goodObj entries = true) :
    unflattenJson (flattenJson (.obj entries) "" []) = some entries := by
  have hH : ∀ path, path ≠ [] → (∀ c ∈ path, c ≠ "" ∧ noDot c = true) →
      splitDots (extendKey "" path) = [] ++ path := by
    intro path h1 h2
    rw [List.nil_append]
    exact extendKey_root path h1 h2
  have hflat : flattenJson (.obj entries) "" []
      = (flatPaths entries).map (fun pw => (extendKey "" pw.1, pw.2)) := by
    rw [show flattenJson (.obj entries) "" [] = flattenObj entries "" []
      from rfl]
    rw [flattenObj_paths entries "" [] [] hg hH (fun pw _ => rfl)]
    rfl
  rw [hflat]
  unfold unflattenJson
  rw [unflattenGo_map_paths (flatPaths entries) .nil (extendKey "")
    (fun pw hpw => by
      obtain ⟨kk, pp, h1, _⟩ := flatPaths_shape entries pw hpw
      exact extendKey_root pw.1 (by simp [h1])
        (flatPaths_comps entries hg pw hpw)),
    insertPaths_flatPaths entries .nil hg (fun _ _ => rfl)]
  rfl

/-- C1 witness: the amended roundtrip applied to a concrete two-field tree
with one nested object. -/
theorem unflatten_flatten_roundtrip_witness :
    goodObj (.cons "a" (.obj (.cons "b" (.str "x") .nil))
      (.cons "c" (.num 3) .nil)) = true ∧
    unflattenJson (flattenJson (.obj (.cons "a" (.obj (.cons "b" (.str "x")
      .nil)) (.cons "c" (.num 3) .nil))) "" [])
      = some (.cons "a" (.obj (.cons "b" (.str "x") .nil))
          (.cons "c" (.num 3) .nil)) :=
  ⟨by decide, unflatten_flatten_roundtrip _ (by decide)⟩

end NewTranslation
